import Mathlib

/-!
Shallow embedding of the opentelemetry-go release tooling
(`internal/tools` package and the `releasing`/`verify_versioning`/`tagging`
scripts) together with the parts of the `golang.org/x/mod/semver` library
that the tooling calls.  Go strings are modelled as `List Char`, Go maps as
association lists (first match wins; insertion removes the old binding, so
keys stay unique, matching Go map semantics), and Go `(T, error)` returns
as `Except`.
-/

/-- Go strings, modelled as lists of characters. -/
abbrev GoStr := List Char

/-- Convenience conversion from Lean string literals. -/
def gs (s : String) : GoStr := s.toList

instance exceptDecEq {ε α : Type} [DecidableEq ε] [DecidableEq α] :
    DecidableEq (Except ε α) := fun x y =>
  match x, y with
  | .error e, .error f =>
    if h : e = f then isTrue (by rw [h])
    else isFalse (fun hh => Except.noConfusion hh (fun he => h he))
  | .error _, .ok _ => isFalse (fun hh => Except.noConfusion hh)
  | .ok _, .error _ => isFalse (fun hh => Except.noConfusion hh)
  | .ok a, .ok b =>
    if h : a = b then isTrue (by rw [h])
    else isFalse (fun hh => Except.noConfusion hh (fun he => h he))

namespace semver

/-! Model of `golang.org/x/mod/semver`, the library used by the tooling to
validate version strings (`IsValid`), extract the major component (`Major`)
and compare versions (`Compare`). -/

/-- Decimal digit test used throughout the parser. -/
def isDigit (c : Char) : Bool := '0' ≤ c && c ≤ '9'

/-- Model of `isIdentChar` from the Go library: ASCII letters, digits and hyphen. -/
def isIdentChar (c : Char) : Bool :=
  ('A' ≤ c && c ≤ 'Z') || ('a' ≤ c && c ≤ 'z') || isDigit c || c = '-'

/-- Model of `isBadNum`: an all-digit identifier with a superfluous leading zero. -/
def isBadNum (v : GoStr) : Bool :=
  v.all isDigit && decide (1 < v.length) && v.head? = some '0'

/-- Model of `parseInt`: splits a leading canonical decimal number off `v`.
Fails on an empty input, a non-digit first character, or a leading zero
followed by more digits. -/
def parseInt (v : GoStr) : Option (GoStr × GoStr) :=
  match v with
  | [] => none
  | c :: cs =>
    if isDigit c then
      let t := (c :: cs).takeWhile isDigit
      let rest := (c :: cs).dropWhile isDigit
      if c = '0' && t.length != 1 then none else some (t, rest)
    else none

/-- Split a string at every `'.'` (segments may be empty). -/
def splitDots : GoStr → List GoStr
  | [] => [[]]
  | c :: rest =>
    if c = '.' then [] :: splitDots rest
    else
      match splitDots rest with
      | [] => [[c]]
      | s :: ss => (c :: s) :: ss

/-- The per-character and per-segment checks of the Go library
`parsePrerelease` (`checkNum = true`) and `parseBuild` (`checkNum = false`)
scanning loops: every character is an identifier character or a dot, and
every dot-separated segment is nonempty (and, for prereleases, not a
numeric segment with a leading zero). -/
def segmentsOk (checkNum : Bool) (body : GoStr) : Bool :=
  body.all (fun ch => isIdentChar ch || ch = '.') &&
  (splitDots body).all (fun seg => !seg.isEmpty && (!checkNum || !isBadNum seg))

/-- Model of `parsePrerelease`: consumes `-ident.ident...` up to a `'+'` or the end. -/
def parsePrerelease (v : GoStr) : Option (GoStr × GoStr) :=
  match v with
  | [] => none
  | c :: rest =>
    if c = '-' then
      let body := rest.takeWhile (fun ch => ch ≠ '+')
      let rem := rest.dropWhile (fun ch => ch ≠ '+')
      if segmentsOk true body then some (c :: body, rem) else none
    else none

/-- Model of `parseBuild`: consumes `+ident.ident...` up to the end of the string. -/
def parseBuild (v : GoStr) : Option (GoStr × GoStr) :=
  match v with
  | [] => none
  | c :: rest =>
    if c = '+' then
      if segmentsOk false rest then some (c :: rest, []) else none
    else none

/-- The result of `parse`: the components of a valid semantic version. -/
structure Parsed where
  major : GoStr
  minor : GoStr
  patch : GoStr
  prerelease : GoStr
  build : GoStr
deriving DecidableEq, Repr

/-- The tail of the Go library function `parse`: optional prerelease, optional
build metadata, then the string must be exhausted. -/
def parseTail (maj mino pat : GoStr) (v : GoStr) : Option Parsed :=
  match (if v.head? = some '-' then parsePrerelease v else some ([], v)) with
  | none => none
  | some (pre, v4) =>
    match (if v4.head? = some '+' then parseBuild v4 else some ([], v4)) with
    | none => none
    | some (bld, v5) => if v5 = [] then some ⟨maj, mino, pat, pre, bld⟩ else none

/-- Model of `parse` after the major component has been read: missing minor and
patch components default to `"0"`. -/
def parseAfterMajor (maj : GoStr) (v1 : GoStr) : Option Parsed :=
  match v1 with
  | [] => some ⟨maj, ['0'], ['0'], [], []⟩
  | c1 :: r1 =>
    if c1 = '.' then
      match parseInt r1 with
      | none => none
      | some (mino, v2) =>
        match v2 with
        | [] => some ⟨maj, mino, ['0'], [], []⟩
        | c2 :: r2 =>
          if c2 = '.' then
            match parseInt r2 with
            | none => none
            | some (pat, v3) => parseTail maj mino pat v3
          else none
    else none

/-- Model of `parse` from the Go library: requires a leading `'v'` followed by a
canonical major number, then optional `.minor`, `.patch`, prerelease and
build parts. -/
def parse (v : GoStr) : Option Parsed :=
  match v with
  | [] => none
  | c :: rest =>
    if c = 'v' then
      match parseInt rest with
      | none => none
      | some (maj, v1) => parseAfterMajor maj v1
    else none

/-- Model of `semver.IsValid`. -/
def IsValid (v : GoStr) : Bool := (parse v).isSome

/-- Model of `semver.Major`: `"v"` plus the major digits, or `""` when invalid. -/
def Major (v : GoStr) : GoStr :=
  match parse v with
  | none => []
  | some p => v.take (1 + p.major.length)

/-- Bytewise lexicographic `<` on Go strings. -/
def goStrLt : GoStr → GoStr → Bool
  | [], [] => false
  | [], _ :: _ => true
  | _ :: _, [] => false
  | a :: as, b :: bs => if a < b then true else if b < a then false else goStrLt as bs

/-- Model of `compareInt`: compares two canonical decimal strings numerically
(shorter means smaller, else lexicographic). -/
def compareInt (x y : GoStr) : Int :=
  if x = y then 0
  else if x.length < y.length then -1
  else if y.length < x.length then 1
  else if goStrLt x y then -1 else 1

/-- Model of `isNum`: entirely decimal digits. -/
def isNum (v : GoStr) : Bool := v.all isDigit

/-- The segment-comparison loop of `comparePrerelease`, on the lists of
dot-separated identifiers. -/
def cmpIdentList : List GoStr → List GoStr → Int
  | [], [] => -1
  | [], _ :: _ => -1
  | _ :: _, [] => 1
  | dx :: xs, dy :: ys =>
    if dx = dy then cmpIdentList xs ys
    else if isNum dx != isNum dy then (if isNum dx then -1 else 1)
    else if isNum dx && decide (dx.length < dy.length) then -1
    else if isNum dx && decide (dy.length < dx.length) then 1
    else if goStrLt dx dy then -1 else 1

/-- Model of `comparePrerelease`: the empty prerelease is highest; otherwise compare
dot-separated identifier lists. -/
def comparePrerelease (x y : GoStr) : Int :=
  if x = y then 0
  else if x = [] then 1
  else if y = [] then -1
  else cmpIdentList (splitDots (x.drop 1)) (splitDots (y.drop 1))

/-- Model of `semver.Compare`: an invalid version sorts below every valid one; valid
versions compare by major, minor, patch, then prerelease. -/
def Compare (v w : GoStr) : Int :=
  match parse v, parse w with
  | none, none => 0
  | none, some _ => -1
  | some _, none => 1
  | some pv, some pw =>
    if compareInt pv.major pw.major ≠ 0 then compareInt pv.major pw.major
    else if compareInt pv.minor pw.minor ≠ 0 then compareInt pv.minor pw.minor
    else if compareInt pv.patch pw.patch ≠ 0 then compareInt pv.patch pw.patch
    else comparePrerelease pv.prerelease pw.prerelease

end semver

/-- Model of `isStableVersion` (verify_versioning scripts): a version is stable when
its major component is at least `v1`. -/
def isStableVersion (v : GoStr) : Bool :=
  decide (0 ≤ semver.Compare (semver.Major v) (gs "v1"))

example : semver.IsValid (gs "v1.2.3") = true := by decide
example : semver.IsValid (gs "v1.2") = true := by decide
example : semver.IsValid (gs "1.2") = false := by decide
example : semver.IsValid (gs "v0.9.0") = true := by decide
example : semver.IsValid (gs "v1.02.3") = false := by decide
example : semver.IsValid (gs "v1.2.3-rc.1+meta") = true := by decide
example : semver.IsValid (gs "v1.2.3-rc..1") = false := by decide
example : semver.IsValid (gs "v1.2.3-rc.01") = false := by decide
example : semver.IsValid (gs "v1.2.3+m..x") = false := by decide
example : semver.Major (gs "v10.1.2") = gs "v10" := by decide
example : semver.Major (gs "1.2") = gs "" := by decide
example : isStableVersion (gs "v1.2.0") = true := by decide
example : isStableVersion (gs "v0.9.0") = false := by decide
example : isStableVersion (gs "v12.0.0") = true := by decide
example : isStableVersion (gs "bogus") = false := by decide

namespace tools

/-! Model of the `internal/tools` package (prerelease.go): the data model,
map construction and tag derivation used by the releasing scripts. -/

/-- Model of `ModulePath`: the module import path. -/
abbrev ModulePath := GoStr

/-- Model of `ModuleFilePath`: path of a `go.mod` file within the repository. -/
abbrev ModuleFilePath := GoStr

/-- Model of `ModuleTagName`: directory of a `go.mod` file, used for Git tagging. -/
abbrev ModuleTagName := GoStr

/-- Model of `ModuleSet`: the shared version and the modules of one named set. -/
structure ModuleSet where
  Version : GoStr
  Modules : List ModulePath
deriving DecidableEq, Repr

/-- Model of `ModuleSetMap`: set name to `ModuleSet` (a Go map, modelled as an
association list whose keys are unique). -/
abbrev ModuleSetMap := List (GoStr × ModuleSet)

/-- Model of `ModuleInfo`: the set name and version a module belongs to. -/
structure ModuleInfo where
  ModuleSetName : GoStr
  Version : GoStr
deriving DecidableEq, Repr

/-- Model of `ModuleInfoMap`: module path to its `ModuleInfo`. -/
abbrev ModuleInfoMap := List (ModulePath × ModuleInfo)

/-- Model of `ModulePathMap`: module path to its `go.mod` file path. -/
abbrev ModulePathMap := List (ModulePath × ModuleFilePath)

/-- Go map lookup `m[k]` (`ok` form): the first binding of `k`. -/
def lookupA {β : Type} (k : GoStr) : List (GoStr × β) → Option β
  | [] => none
  | (k', v) :: rest => if k = k' then some v else lookupA k rest

/-- The keys of an association-list map. -/
def keys {β : Type} (m : List (GoStr × β)) : List GoStr := m.map Prod.fst

/-- Removal of the bindings of a key, used to model Go map assignment. -/
def eraseKey {β : Type} (k : GoStr) : List (GoStr × β) → List (GoStr × β)
  | [] => []
  | e :: rest => if e.1 = k then eraseKey k rest else e :: eraseKey k rest

/-- Go map assignment `m[k] = v`: replaces any existing binding of `k`. -/
def mapInsert {β : Type} (m : List (GoStr × β)) (k : GoStr) (v : β) :
    List (GoStr × β) :=
  (k, v) :: eraseKey k m

/-- Model of `repoRootTag`: sentinel tag name for the repository-root module. -/
def repoRootTag : ModuleTagName := gs "repoRootTag"

/-- Model of `CombineModuleTagNamesAndVersion`: one full tag per tag name, the root
sentinel yielding the bare version and all others `tagName + "/" + version`. -/
def CombineModuleTagNamesAndVersion : List ModuleTagName → GoStr → List GoStr
  | [], _ => []
  | modTagName :: rest, version =>
    (if modTagName = repoRootTag then version else modTagName ++ gs "/" ++ version) ::
      CombineModuleTagNamesAndVersion rest version

/-- Go `strings.TrimPrefix`. -/
def trimPrefix (s pre : GoStr) : GoStr :=
  if pre.isPrefixOf s then s.drop pre.length else s

/-- Go `strings.TrimSuffix`. -/
def trimSuffix (s suf : GoStr) : GoStr :=
  if suf.isSuffixOf s then s.take (s.length - suf.length) else s

/-- The error returned by `ModuleFilePathToTagName`. -/
inductive TagNameError where
  | notInRepoRoot (modFilePath : ModuleFilePath) (repoRoot : GoStr)
deriving DecidableEq, Repr

/-- Model of `ModuleFilePathToTagName`: strips the repository-root prefix and the
`/go.mod` suffix; if nothing was stripped the path is rejected, and the
residue `go.mod` denotes the repository root. -/
def ModuleFilePathToTagName (modFilePath : ModuleFilePath) (repoRoot : GoStr) :
    Except TagNameError ModuleTagName :=
  let modTagNameWithGoMod := trimPrefix modFilePath (repoRoot ++ gs "/")
  let modTagName := trimSuffix modTagNameWithGoMod (gs "/go.mod")
  if modTagName = modFilePath then .error (.notInRepoRoot modFilePath repoRoot)
  else if modTagName = gs "go.mod" then .ok repoRootTag
  else .ok modTagName

/-- Go `filepath.Base` for the clean, non-empty paths produced by
`filepath.Walk`: the component after the last `'/'`. -/
def filepathBase (p : GoStr) : GoStr :=
  (p.reverse.takeWhile (fun c => decide (c ≠ '/'))).reverse

/-- One file visited by the `filepath.Walk` of `BuildModulePathMap`: its
path and the module path its contents declare (`modfile.ModulePath`). -/
structure WalkFile where
  filePath : GoStr
  declaredModPath : ModulePath
deriving DecidableEq, Repr

/-- Model of `BuildModulePathMap`: over the walked files, keeps those named
`go.mod`, skips modules in `excludedModules`, and records declared module
path to file path. -/
def BuildModulePathMap (excludedModules : List ModulePath) (walk : List WalkFile) :
    ModulePathMap :=
  walk.foldl
    (fun modPathMap f =>
      if filepathBase f.filePath = gs "go.mod" then
        if f.declaredModPath ∈ excludedModules then modPathMap
        else mapInsert modPathMap f.declaredModPath f.filePath
      else modPathMap)
    []

/-- Errors of `BuildModuleMap`. -/
inductive BuildError where
  | duplicateModule (modPath : ModulePath) (firstSet secondSet : GoStr)
  | excludedModuleVersioned (modPath : ModulePath)
deriving DecidableEq, Repr

/-- Inner loop of `BuildModuleMap` over the module list of one set: fails when
the module is already mapped or is excluded, otherwise records it. -/
def addSetModules (excludedModules : List ModulePath) (setName version : GoStr) :
    List ModulePath → ModuleInfoMap → Except BuildError ModuleInfoMap
  | [], modMap => .ok modMap
  | modPath :: rest, modMap =>
    match lookupA modPath modMap with
    | some prev => .error (.duplicateModule modPath prev.ModuleSetName setName)
    | none =>
      if modPath ∈ excludedModules then .error (.excludedModuleVersioned modPath)
      else addSetModules excludedModules setName version rest
        (mapInsert modMap modPath ⟨setName, version⟩)

/-- Outer loop of `BuildModuleMap` over the sets. -/
def buildModuleMapGo (excludedModules : List ModulePath) :
    ModuleSetMap → ModuleInfoMap → Except BuildError ModuleInfoMap
  | [], modMap => .ok modMap
  | (setName, mset) :: rest, modMap =>
    match addSetModules excludedModules setName mset.Version mset.Modules modMap with
    | .error e => .error e
    | .ok modMap' => buildModuleMapGo excludedModules rest modMap'

/-- Model of `BuildModuleMap`: inverts an already-loaded module-set map (the YAML
loading itself is out of scope) into a `ModuleInfoMap`. -/
def BuildModuleMap (modSetMap : ModuleSetMap) (excludedModules : List ModulePath) :
    Except BuildError ModuleInfoMap :=
  buildModuleMapGo excludedModules modSetMap []

end tools

namespace cmd

open tools

/-! Model of the `verify` command (releasing/cmd/prerelease.go and the
verify_versioning scripts): the three consistency checks. -/

/-- Errors of the verify checks. -/
inductive VerifyError where
  | unregisteredModule (modPath : ModulePath) (modFilePath : ModuleFilePath)
  | orphanModule (modPath : ModulePath) (setName : GoStr)
  | invalidVersion (setName : GoStr) (version : GoStr)
  | majorCollision (major firstSet firstVersion secondSet secondVersion : GoStr)
deriving DecidableEq, Repr

/-- First loop of `verifyAllModulesInSet`: every discovered module must be
in some module set. -/
def checkDiscovered (modInfoMap : ModuleInfoMap) : ModulePathMap → Except VerifyError Unit
  | [] => .ok ()
  | (modPath, modFilePath) :: rest =>
    match lookupA modPath modInfoMap with
    | some _ => checkDiscovered modInfoMap rest
    | none => .error (.unregisteredModule modPath modFilePath)

/-- Second loop of `verifyAllModulesInSet`: every module of a set must
exist in the repository. -/
def checkRegistered (modPathMap : ModulePathMap) : ModuleInfoMap → Except VerifyError Unit
  | [] => .ok ()
  | (modPath, modInfo) :: rest =>
    match lookupA modPath modPathMap with
    | some _ => checkRegistered modPathMap rest
    | none => .error (.orphanModule modPath modInfo.ModuleSetName)

/-- Model of `verifyAllModulesInSet`: both membership loops in order. -/
def verifyAllModulesInSet (modPathMap : ModulePathMap) (modInfoMap : ModuleInfoMap) :
    Except VerifyError Unit :=
  match checkDiscovered modInfoMap modPathMap with
  | .error e => .error e
  | .ok () => checkRegistered modPathMap modInfoMap

/-- The loop of `verifyVersions`, carrying the `setMajorVersions` map from
major component to the first stable set seen with it; the first argument
is the whole map, used only to report the version of the earlier set. -/
def verifyVersionsGo (modSetMap : ModuleSetMap) :
    ModuleSetMap → List (GoStr × GoStr) → Except VerifyError Unit
  | [], _ => .ok ()
  | (modSetName, modSet) :: rest, setMajorVersions =>
    if !semver.IsValid modSet.Version then
      .error (.invalidVersion modSetName modSet.Version)
    else if isStableVersion modSet.Version then
      match lookupA (semver.Major modSet.Version) setMajorVersions with
      | some prevModSetName =>
        .error (.majorCollision (semver.Major modSet.Version) prevModSetName
          (((lookupA prevModSetName modSetMap).getD ⟨[], []⟩).Version)
          modSetName modSet.Version)
      | none =>
        verifyVersionsGo modSetMap rest
          (mapInsert setMajorVersions (semver.Major modSet.Version) modSetName)
    else verifyVersionsGo modSetMap rest setMajorVersions

/-- Model of `verifyVersions`: semver validity of the version of every set, plus at most
one stable set per major version. -/
def verifyVersions (modSetMap : ModuleSetMap) : Except VerifyError Unit :=
  verifyVersionsGo modSetMap modSetMap []

/-- One printed warning of `verifyDependencies`. -/
structure DependencyWarning where
  modPath : ModulePath
  modVersion : GoStr
  depPath : ModulePath
  depVersion : GoStr
deriving DecidableEq, Repr

/-- The error `verifyDependencies` propagates when `modfile.Parse` fails. -/
inductive GoModParseError where
  | parseFailed
deriving DecidableEq, Repr

/-- Warnings for the `require` dependencies of one stable module: a
warning per dependency that is governed and unstable. -/
def depWarnings (modInfoMap : ModuleInfoMap) (modPath : ModulePath) (modVersion : GoStr) :
    List ModulePath → List DependencyWarning
  | [] => []
  | dep :: rest =>
    match lookupA dep modInfoMap with
    | some depModInfo =>
      if !isStableVersion depModInfo.Version then
        ⟨modPath, modVersion, dep, depModInfo.Version⟩ ::
          depWarnings modInfoMap modPath modVersion rest
      else depWarnings modInfoMap modPath modVersion rest
    | none => depWarnings modInfoMap modPath modVersion rest

/-- The loop of `verifyDependencies`.  `readAndParse` models
`ioutil.ReadFile` followed by `modfile.Parse`, yielding the `require`
module paths or `none` on a parse failure; an absent `modPathMap` entry
yields the Go zero value `""` as file path, as in the source. -/
def verifyDependenciesGo (modInfoMapFull : ModuleInfoMap) (modPathMap : ModulePathMap)
    (readAndParse : ModuleFilePath → Option (List ModulePath)) :
    ModuleInfoMap → Except GoModParseError (List DependencyWarning)
  | [] => .ok []
  | (modPath, modInfo) :: rest =>
    if isStableVersion modInfo.Version then
      match readAndParse ((lookupA modPath modPathMap).getD []) with
      | none => .error .parseFailed
      | some requireDeps =>
        match verifyDependenciesGo modInfoMapFull modPathMap readAndParse rest with
        | .error e => .error e
        | .ok ws =>
          .ok (depWarnings modInfoMapFull modPath
            (((lookupA modPath modInfoMapFull).getD ⟨[], []⟩).Version) requireDeps ++ ws)
    else verifyDependenciesGo modInfoMapFull modPathMap readAndParse rest

/-- Model of `verifyDependencies`: warns (never fails) when a stable module requires
a governed unstable module, but propagates `modfile.Parse` errors. -/
def verifyDependencies (modInfoMap : ModuleInfoMap) (modPathMap : ModulePathMap)
    (readAndParse : ModuleFilePath → Option (List ModulePath)) :
    Except GoModParseError (List DependencyWarning) :=
  verifyDependenciesGo modInfoMap modPathMap readAndParse modInfoMap

end cmd

namespace tagging

open tools

/-! Model of tagging.go: batch tag creation with compensating deletion.
The ambient git tag database is modelled as a finite set of tag names;
`gitFails` abstracts git rejecting a tag creation (bad commit, signing
failure, ...) beyond the tag already existing. -/

/-- The set of existing git tags. -/
abbrev TagSet := Finset GoStr

/-- Failures of `tagAllModules`. -/
inductive TagFailure where
  | createFailed (tag : GoStr)
  | createAndRollbackFailed (tag : GoStr)
deriving DecidableEq

/-- Model of `git tag -a <tag> ...`: fails if git rejects the creation or the tag
already exists, otherwise adds the tag. -/
def gitCreateTag (gitFails : GoStr → Bool) (tags : TagSet) (t : GoStr) : Option TagSet :=
  if gitFails t || t ∈ tags then none else some (insert t tags)

/-- Model of `git tag -d <tag>`: fails if the tag does not exist. -/
def gitDeleteTag (tags : TagSet) (t : GoStr) : Option TagSet :=
  if t ∈ tags then some (tags.erase t) else none

/-- Model of `deleteTags`: deletes the listed tags in order; on the first failure it
returns the state reached so far as the error. -/
def deleteTags (tags : TagSet) : List GoStr → Except TagSet TagSet
  | [] => .ok tags
  | t :: rest =>
    match gitDeleteTag tags t with
    | none => .error tags
    | some tags' => deleteTags tags' rest

/-- The loop of `tagAllModules`, carrying `addedFullTags`; on a creation
failure the added tags are deleted before the error is returned.  The
result carries the final tag set in both outcomes. -/
def tagAllModulesGo (gitFails : GoStr → Bool) :
    List GoStr → List GoStr → TagSet → Except (TagFailure × TagSet) TagSet
  | [], _, tags => .ok tags
  | newFullTag :: rest, addedFullTags, tags =>
    match gitCreateTag gitFails tags newFullTag with
    | none =>
      match deleteTags tags addedFullTags with
      | .ok tags' => .error (.createFailed newFullTag, tags')
      | .error tagsMid => .error (.createAndRollbackFailed newFullTag, tagsMid)
    | some tags' => tagAllModulesGo gitFails rest (addedFullTags ++ [newFullTag]) tags'

/-- Model of `tagAllModules`: combines the tag names with the version and creates
each full tag in order, rolling back on failure. -/
def tagAllModules (gitFails : GoStr → Bool) (version : GoStr)
    (modTagNames : List ModuleTagName) (tags : TagSet) :
    Except (TagFailure × TagSet) TagSet :=
  tagAllModulesGo gitFails (CombineModuleTagNamesAndVersion modTagNames version) [] tags

end tagging

section SanityChecks

open tools cmd

example :
    CombineModuleTagNamesAndVersion [gs "sdk/metric", repoRootTag] (gs "v1.2.0") =
      [gs "sdk/metric/v1.2.0", gs "v1.2.0"] := by decide

example :
    ModuleFilePathToTagName (gs "/other/root/sdk/go.mod") (gs "/repo") =
      .ok (gs "/other/root/sdk") := by decide

example :
    ModuleFilePathToTagName (gs "/repo/sdk/go.mod") (gs "/repo") = .ok (gs "sdk") := by
  decide

example :
    ModuleFilePathToTagName (gs "/repo/go.mod") (gs "/repo") = .ok repoRootTag := by
  decide

example :
    verifyVersions [(gs "a", ⟨gs "v1.2.0", []⟩), (gs "b", ⟨gs "v1.5.0", []⟩)] =
      .error (.majorCollision (gs "v1") (gs "a") (gs "v1.2.0") (gs "b") (gs "v1.5.0")) := by
  decide

example :
    verifyVersions [(gs "a", ⟨gs "v0.3.0", []⟩), (gs "b", ⟨gs "v0.9.0", []⟩)] = .ok () := by
  decide

example :
    verifyVersions [(gs "s", ⟨gs "1.2", []⟩)] = .error (.invalidVersion (gs "s") (gs "1.2")) := by
  decide

example :
    BuildModuleMap [(gs "A", ⟨gs "v1.0.0", [gs "m", gs "m"]⟩)] [] =
      .error (.duplicateModule (gs "m") (gs "A") (gs "A")) := by decide

end SanityChecks

namespace tools

/-! Association-list (Go map) lemmas. -/

theorem keys_nil {β : Type} : keys ([] : List (GoStr × β)) = [] := rfl

theorem keys_cons {β : Type} (e : GoStr × β) (m : List (GoStr × β)) :
    keys (e :: m) = e.1 :: keys m := rfl

theorem lookupA_isSome_iff {β : Type} (k : GoStr) (m : List (GoStr × β)) :
    (lookupA k m).isSome = true ↔ k ∈ keys m := by
  induction m with
  | nil => simp [lookupA, keys_nil]
  | cons e rest ih =>
    obtain ⟨k', v⟩ := e
    rw [keys_cons]
    by_cases h : k = k'
    · simp [lookupA, h]
    · rw [show lookupA k ((k', v) :: rest) = lookupA k rest from by simp [lookupA, h]]
      rw [ih, List.mem_cons]
      exact ⟨Or.inr, fun hh => hh.resolve_left h⟩

theorem lookupA_eq_none_iff {β : Type} (k : GoStr) (m : List (GoStr × β)) :
    lookupA k m = none ↔ k ∉ keys m := by
  rw [← lookupA_isSome_iff]
  cases lookupA k m <;> simp

theorem lookupA_eraseKey {β : Type} (k k' : GoStr) (m : List (GoStr × β)) :
    lookupA k (eraseKey k' m) = if k = k' then none else lookupA k m := by
  induction m with
  | nil => simp [eraseKey, lookupA]
  | cons e rest ih =>
    obtain ⟨a, v⟩ := e
    by_cases ha : a = k'
    · rw [show eraseKey k' ((a, v) :: rest) = eraseKey k' rest from by simp [eraseKey, ha]]
      rw [ih]
      by_cases hk : k = k'
      · simp [hk]
      · have : k ≠ a := fun hh => hk (hh.trans ha)
        simp [hk, lookupA, this]
    · rw [show eraseKey k' ((a, v) :: rest) = (a, v) :: eraseKey k' rest from by
        simp [eraseKey, ha]]
      by_cases hk : k = a
      · have hkk : ¬ k = k' := fun hh => ha (hk.symm.trans hh)
        rw [if_neg hkk]
        simp [lookupA, hk]
      · rw [show lookupA k ((a, v) :: eraseKey k' rest) = lookupA k (eraseKey k' rest) from by
          simp [lookupA, hk]]
        rw [show lookupA k ((a, v) :: rest) = lookupA k rest from by simp [lookupA, hk]]
        exact ih

theorem lookupA_mapInsert_self {β : Type} (k : GoStr) (v : β) (m : List (GoStr × β)) :
    lookupA k (mapInsert m k v) = some v := by
  simp [mapInsert, lookupA]

theorem lookupA_mapInsert_ne {β : Type} (k k' : GoStr) (v : β) (m : List (GoStr × β))
    (h : k ≠ k') : lookupA k (mapInsert m k' v) = lookupA k m := by
  rw [show lookupA k (mapInsert m k' v) = lookupA k (eraseKey k' m) from by
    simp [mapInsert, lookupA, h]]
  rw [lookupA_eraseKey]
  simp [h]

theorem lookupA_mapInsert {β : Type} (k k' : GoStr) (v : β) (m : List (GoStr × β)) :
    lookupA k (mapInsert m k' v) = if k = k' then some v else lookupA k m := by
  by_cases h : k = k'
  · subst h; simp [lookupA_mapInsert_self]
  · simp [h, lookupA_mapInsert_ne k k' v m h]

end tools

namespace cmd

open tools

/-! Characterization of `verifyAllModulesInSet`. -/

theorem checkDiscovered_ok_iff (im : ModuleInfoMap) (pm : ModulePathMap) :
    checkDiscovered im pm = .ok () ↔ ∀ p ∈ keys pm, p ∈ keys im := by
  induction pm with
  | nil => simp [checkDiscovered, keys_nil]
  | cons e rest ih =>
    obtain ⟨p, f⟩ := e
    cases h : lookupA p im with
    | some val =>
      have hp : p ∈ keys im := (lookupA_isSome_iff p im).mp (by rw [h]; rfl)
      rw [show checkDiscovered im ((p, f) :: rest) = checkDiscovered im rest from by
        simp [checkDiscovered, h]]
      rw [ih, keys_cons]
      constructor
      · intro hall q hq
        rcases List.mem_cons.mp hq with rfl | hq'
        · exact hp
        · exact hall q hq'
      · intro hall q hq
        exact hall q (List.mem_cons_of_mem _ hq)
    | none =>
      have hp : p ∉ keys im := (lookupA_eq_none_iff p im).mp h
      rw [show checkDiscovered im ((p, f) :: rest) =
          .error (.unregisteredModule p f) from by simp [checkDiscovered, h]]
      rw [keys_cons]
      constructor
      · intro hh; exact absurd hh (by simp)
      · intro hall; exact absurd (hall p (List.mem_cons_self _ _)) hp

theorem checkDiscovered_error_spec (im : ModuleInfoMap) (pm : ModulePathMap)
    (h : ∃ p ∈ keys pm, p ∉ keys im) :
    ∃ p f, (p, f) ∈ pm ∧ p ∉ keys im ∧
      checkDiscovered im pm = .error (.unregisteredModule p f) := by
  induction pm with
  | nil => simp [keys_nil] at h
  | cons e rest ih =>
    obtain ⟨p, f⟩ := e
    cases hl : lookupA p im with
    | some val =>
      have hp : p ∈ keys im := (lookupA_isSome_iff p im).mp (by rw [hl]; rfl)
      obtain ⟨q, hq, hqn⟩ := h
      rw [keys_cons] at hq
      have hq' : q ∈ keys rest := by
        rcases List.mem_cons.mp hq with rfl | h'
        · exact absurd hp hqn
        · exact h'
      obtain ⟨p', f', hmem, hn, heq⟩ := ih ⟨q, hq', hqn⟩
      exact ⟨p', f', List.mem_cons_of_mem _ hmem, hn, by simp [checkDiscovered, hl, heq]⟩
    | none =>
      exact ⟨p, f, List.mem_cons_self _ _, (lookupA_eq_none_iff p im).mp hl,
        by simp [checkDiscovered, hl]⟩

theorem checkDiscovered_error_mem (im : ModuleInfoMap) (pm : ModulePathMap)
    (p : ModulePath) (f : ModuleFilePath)
    (h : checkDiscovered im pm = .error (.unregisteredModule p f)) : (p, f) ∈ pm := by
  induction pm with
  | nil => simp [checkDiscovered] at h
  | cons e rest ih =>
    obtain ⟨p', f'⟩ := e
    cases hl : lookupA p' im with
    | some val =>
      rw [show checkDiscovered im ((p', f') :: rest) = checkDiscovered im rest from by
        simp [checkDiscovered, hl]] at h
      exact List.mem_cons_of_mem _ (ih h)
    | none =>
      rw [show checkDiscovered im ((p', f') :: rest) =
          .error (.unregisteredModule p' f') from by simp [checkDiscovered, hl]] at h
      obtain ⟨rfl, rfl⟩ :=
        (by simpa using h : p' = p ∧ f' = f)
      exact List.mem_cons_self _ _

theorem checkRegistered_ok_iff (pm : ModulePathMap) (im : ModuleInfoMap) :
    checkRegistered pm im = .ok () ↔ ∀ p ∈ keys im, p ∈ keys pm := by
  induction im with
  | nil => simp [checkRegistered, keys_nil]
  | cons e rest ih =>
    obtain ⟨p, info⟩ := e
    cases h : lookupA p pm with
    | some val =>
      have hp : p ∈ keys pm := (lookupA_isSome_iff p pm).mp (by rw [h]; rfl)
      rw [show checkRegistered pm ((p, info) :: rest) = checkRegistered pm rest from by
        simp [checkRegistered, h]]
      rw [ih, keys_cons]
      constructor
      · intro hall q hq
        rcases List.mem_cons.mp hq with rfl | hq'
        · exact hp
        · exact hall q hq'
      · intro hall q hq
        exact hall q (List.mem_cons_of_mem _ hq)
    | none =>
      have hp : p ∉ keys pm := (lookupA_eq_none_iff p pm).mp h
      rw [show checkRegistered pm ((p, info) :: rest) =
          .error (.orphanModule p info.ModuleSetName) from by simp [checkRegistered, h]]
      rw [keys_cons]
      constructor
      · intro hh; exact absurd hh (by simp)
      · intro hall; exact absurd (hall p (List.mem_cons_self _ _)) hp

theorem checkRegistered_error_spec (pm : ModulePathMap) (im : ModuleInfoMap)
    (h : ∃ p ∈ keys im, p ∉ keys pm) :
    ∃ p info, (p, info) ∈ im ∧ p ∉ keys pm ∧
      checkRegistered pm im = .error (.orphanModule p info.ModuleSetName) := by
  induction im with
  | nil => simp [keys_nil] at h
  | cons e rest ih =>
    obtain ⟨p, info⟩ := e
    cases hl : lookupA p pm with
    | some val =>
      have hp : p ∈ keys pm := (lookupA_isSome_iff p pm).mp (by rw [hl]; rfl)
      obtain ⟨q, hq, hqn⟩ := h
      rw [keys_cons] at hq
      have hq' : q ∈ keys rest := by
        rcases List.mem_cons.mp hq with rfl | h'
        · exact absurd hp hqn
        · exact h'
      obtain ⟨p', info', hmem, hn, heq⟩ := ih ⟨q, hq', hqn⟩
      exact ⟨p', info', List.mem_cons_of_mem _ hmem, hn, by simp [checkRegistered, hl, heq]⟩
    | none =>
      exact ⟨p, info, List.mem_cons_self _ _, (lookupA_eq_none_iff p pm).mp hl,
        by simp [checkRegistered, hl]⟩

theorem checkRegistered_error_shape (pm : ModulePathMap) (im : ModuleInfoMap)
    (e : VerifyError) (h : checkRegistered pm im = .error e) :
    ∃ q s, e = .orphanModule q s := by
  induction im with
  | nil => simp [checkRegistered] at h
  | cons x rest ih =>
    obtain ⟨p, info⟩ := x
    cases hl : lookupA p pm with
    | some val =>
      rw [show checkRegistered pm ((p, info) :: rest) = checkRegistered pm rest from by
        simp [checkRegistered, hl]] at h
      exact ih h
    | none =>
      rw [show checkRegistered pm ((p, info) :: rest) =
          .error (.orphanModule p info.ModuleSetName) from by simp [checkRegistered, hl]] at h
      exact ⟨p, info.ModuleSetName, (by simpa using h : _ = e).symm⟩

end cmd

namespace cmd

open tools

/-- C1: `verifyAllModulesInSet` succeeds iff the module-path key sets of
the discovered-module map and the module-info map are equal; a discovered
module missing from the manifest yields an error naming the module and its
declaration file, and (when every discovered module is registered) a
manifest module with no discovered file yields an error naming the module
and its set. -/
theorem verifyAllModulesInSet_bijection (pm : ModulePathMap) (im : ModuleInfoMap) :
    (verifyAllModulesInSet pm im = .ok () ↔ ∀ p, p ∈ keys pm ↔ p ∈ keys im)
    ∧ ((∃ p ∈ keys pm, p ∉ keys im) →
        ∃ p f, (p, f) ∈ pm ∧ p ∉ keys im ∧
          verifyAllModulesInSet pm im = .error (.unregisteredModule p f))
    ∧ ((∀ p ∈ keys pm, p ∈ keys im) → (∃ p ∈ keys im, p ∉ keys pm) →
        ∃ p info, (p, info) ∈ im ∧ p ∉ keys pm ∧
          verifyAllModulesInSet pm im = .error (.orphanModule p info.ModuleSetName)) := by
  refine ⟨?_, ?_, ?_⟩
  · cases h1 : checkDiscovered im pm with
    | error e =>
      have hne : ¬ (checkDiscovered im pm = .ok ()) := by rw [h1]; simp
      rw [checkDiscovered_ok_iff] at hne
      push_neg at hne
      obtain ⟨q, hq, hqn⟩ := hne
      rw [show verifyAllModulesInSet pm im = .error e from by
        simp [verifyAllModulesInSet, h1]]
      constructor
      · intro hh; exact absurd hh (by simp)
      · intro hall; exact absurd ((hall q).mp hq) hqn
    | ok u =>
      cases u
      rw [show verifyAllModulesInSet pm im = checkRegistered pm im from by
        simp [verifyAllModulesInSet, h1]]
      rw [checkRegistered_ok_iff]
      have hfwd := (checkDiscovered_ok_iff im pm).mp h1
      constructor
      · intro hback p
        exact ⟨fun hp => hfwd p hp, fun hp => hback p hp⟩
      · intro hiff p hp
        exact (hiff p).mpr hp
  · intro h
    obtain ⟨p, f, hmem, hn, heq⟩ := checkDiscovered_error_spec im pm h
    exact ⟨p, f, hmem, hn, by simp [verifyAllModulesInSet, heq]⟩
  · intro hfwd h
    have h1 : checkDiscovered im pm = .ok () := (checkDiscovered_ok_iff im pm).mpr hfwd
    obtain ⟨p, info, hmem, hn, heq⟩ := checkRegistered_error_spec pm im h
    exact ⟨p, info, hmem, hn, by simp [verifyAllModulesInSet, h1, heq]⟩

/-- Witness for C1: concrete runs of all three conjuncts of
`verifyAllModulesInSet_bijection`. -/
theorem verifyAllModulesInSet_bijection_witness :
    (∃ p f, (p, f) ∈ [(gs "orphan.disk", gs "/r/a/go.mod")] ∧
      p ∉ keys ([] : tools.ModuleInfoMap) ∧
      verifyAllModulesInSet [(gs "orphan.disk", gs "/r/a/go.mod")] [] =
        .error (.unregisteredModule p f))
    ∧ (∃ p info, (p, info) ∈ [(gs "ghost.mod", tools.ModuleInfo.mk (gs "S") (gs "v1.0.0"))] ∧
      p ∉ keys ([] : tools.ModulePathMap) ∧
      verifyAllModulesInSet [] [(gs "ghost.mod", tools.ModuleInfo.mk (gs "S") (gs "v1.0.0"))] =
        .error (.orphanModule p info.ModuleSetName))
    ∧ verifyAllModulesInSet [(gs "a", gs "/r/a/go.mod")]
        [(gs "a", tools.ModuleInfo.mk (gs "S") (gs "v1.0.0"))] = .ok () :=
  ⟨(verifyAllModulesInSet_bijection [(gs "orphan.disk", gs "/r/a/go.mod")] []).2.1
      ⟨gs "orphan.disk", by decide, by decide⟩,
    (verifyAllModulesInSet_bijection []
        [(gs "ghost.mod", tools.ModuleInfo.mk (gs "S") (gs "v1.0.0"))]).2.2
      (by decide) ⟨gs "ghost.mod", by decide, by decide⟩,
    by decide⟩

end cmd

namespace cmd

open tools

/-! Characterization of `verifyVersions`. -/

/-- Two module-set entries do not collide: when both versions are stable,
their major components differ. -/
def noCollide (a b : GoStr × ModuleSet) : Prop :=
  isStableVersion a.2.Version = true → isStableVersion b.2.Version = true →
    semver.Major a.2.Version ≠ semver.Major b.2.Version

theorem verifyVersionsGo_ok_iff (orig : ModuleSetMap) (l : ModuleSetMap)
    (acc : List (GoStr × GoStr)) :
    verifyVersionsGo orig l acc = .ok () ↔
      ((∀ x ∈ l, semver.IsValid x.2.Version = true) ∧ l.Pairwise noCollide ∧
        ∀ x ∈ l, isStableVersion x.2.Version = true →
          lookupA (semver.Major x.2.Version) acc = none) := by
  induction l generalizing acc with
  | nil => simp [verifyVersionsGo]
  | cons x rest ih =>
    obtain ⟨name, mset⟩ := x
    by_cases hv : semver.IsValid mset.Version = true
    · by_cases hs : isStableVersion mset.Version = true
      · cases hl : lookupA (semver.Major mset.Version) acc with
        | some prev =>
          rw [show verifyVersionsGo orig ((name, mset) :: rest) acc =
              .error (.majorCollision (semver.Major mset.Version) prev
                (((lookupA prev orig).getD ⟨[], []⟩).Version) name mset.Version) from by
            simp [verifyVersionsGo, hv, hs, hl]]
          constructor
          · intro hh; exact absurd hh (by simp)
          · rintro ⟨-, -, hacc⟩
            have hcontra := hacc (name, mset) (List.mem_cons_self _ _) hs
            rw [hl] at hcontra
            exact absurd hcontra (by simp)
        | none =>
          rw [show verifyVersionsGo orig ((name, mset) :: rest) acc =
              verifyVersionsGo orig rest
                (mapInsert acc (semver.Major mset.Version) name) from by
            simp [verifyVersionsGo, hv, hs, hl]]
          rw [ih]
          constructor
          · rintro ⟨hval, hpw, hacc⟩
            refine ⟨?_, ?_, ?_⟩
            · intro y hy
              rcases List.mem_cons.mp hy with rfl | hy'
              · exact hv
              · exact hval y hy'
            · rw [List.pairwise_cons]
              refine ⟨?_, hpw⟩
              intro y hy hsx hsy hmeq
              have h2 := hacc y hy hsy
              rw [lookupA_mapInsert, if_pos hmeq.symm] at h2
              exact absurd h2 (by simp)
            · intro y hy hsy
              rcases List.mem_cons.mp hy with rfl | hy'
              · exact hl
              · have h2 := hacc y hy' hsy
                rw [lookupA_mapInsert] at h2
                by_cases hmeq : semver.Major y.2.Version = semver.Major mset.Version
                · rw [if_pos hmeq] at h2
                  exact absurd h2 (by simp)
                · rwa [if_neg hmeq] at h2
          · rintro ⟨hval, hpw, hacc⟩
            obtain ⟨hhead, hpw'⟩ := List.pairwise_cons.mp hpw
            refine ⟨fun y hy => hval y (List.mem_cons_of_mem _ hy), hpw', ?_⟩
            intro y hy hsy
            rw [lookupA_mapInsert]
            have hne : semver.Major y.2.Version ≠ semver.Major mset.Version :=
              fun hmeq => (hhead y hy hs hsy) hmeq.symm
            rw [if_neg hne]
            exact hacc y (List.mem_cons_of_mem _ hy) hsy
      · rw [show verifyVersionsGo orig ((name, mset) :: rest) acc =
            verifyVersionsGo orig rest acc from by simp [verifyVersionsGo, hv, hs]]
        rw [ih]
        constructor
        · rintro ⟨hval, hpw, hacc⟩
          refine ⟨?_, ?_, ?_⟩
          · intro y hy
            rcases List.mem_cons.mp hy with rfl | hy'
            · exact hv
            · exact hval y hy'
          · rw [List.pairwise_cons]
            exact ⟨fun y hy hsx => absurd hsx hs, hpw⟩
          · intro y hy hsy
            rcases List.mem_cons.mp hy with rfl | hy'
            · exact absurd hsy hs
            · exact hacc y hy' hsy
        · rintro ⟨hval, hpw, hacc⟩
          exact ⟨fun y hy => hval y (List.mem_cons_of_mem _ hy),
            (List.pairwise_cons.mp hpw).2,
            fun y hy hsy => hacc y (List.mem_cons_of_mem _ hy) hsy⟩
    · have hv' : semver.IsValid mset.Version = false := by
        revert hv; cases semver.IsValid mset.Version <;> simp
      rw [show verifyVersionsGo orig ((name, mset) :: rest) acc =
          .error (.invalidVersion name mset.Version) from by simp [verifyVersionsGo, hv']]
      constructor
      · intro hh; exact absurd hh (by simp)
      · rintro ⟨hval, -, -⟩
        exact absurd (hval (name, mset) (List.mem_cons_self _ _)) hv

theorem verifyVersions_ok_iff (l : ModuleSetMap) :
    verifyVersions l = .ok () ↔
      ((∀ x ∈ l, semver.IsValid x.2.Version = true) ∧ l.Pairwise noCollide) := by
  rw [show verifyVersions l = verifyVersionsGo l l [] from rfl, verifyVersionsGo_ok_iff]
  constructor
  · rintro ⟨a, b, -⟩; exact ⟨a, b⟩
  · rintro ⟨a, b⟩; exact ⟨a, b, fun x hx hs => rfl⟩

theorem verifyVersionsGo_error_collision (orig : ModuleSetMap) (l : ModuleSetMap)
    (acc : List (GoStr × GoStr)) (hval : ∀ x ∈ l, semver.IsValid x.2.Version = true)
    (e : VerifyError) (h : verifyVersionsGo orig l acc = .error e) :
    ∃ maj a av b bv, e = .majorCollision maj a av b bv := by
  induction l generalizing acc with
  | nil => simp [verifyVersionsGo] at h
  | cons x rest ih =>
    obtain ⟨name, mset⟩ := x
    have hv : semver.IsValid mset.Version = true := hval _ (List.mem_cons_self _ _)
    have hval' : ∀ y ∈ rest, semver.IsValid y.2.Version = true :=
      fun y hy => hval y (List.mem_cons_of_mem _ hy)
    by_cases hs : isStableVersion mset.Version = true
    · cases hl : lookupA (semver.Major mset.Version) acc with
      | some prev =>
        rw [show verifyVersionsGo orig ((name, mset) :: rest) acc =
            .error (.majorCollision (semver.Major mset.Version) prev
              (((lookupA prev orig).getD ⟨[], []⟩).Version) name mset.Version) from by
          simp [verifyVersionsGo, hv, hs, hl]] at h
        exact ⟨semver.Major mset.Version, prev,
          ((lookupA prev orig).getD ⟨[], []⟩).Version, name, mset.Version,
          by simpa using h.symm⟩
      | none =>
        rw [show verifyVersionsGo orig ((name, mset) :: rest) acc =
            verifyVersionsGo orig rest
              (mapInsert acc (semver.Major mset.Version) name) from by
          simp [verifyVersionsGo, hv, hs, hl]] at h
        exact ih _ hval' h
    · rw [show verifyVersionsGo orig ((name, mset) :: rest) acc =
          verifyVersionsGo orig rest acc from by simp [verifyVersionsGo, hv, hs]] at h
      exact ih _ hval' h

end cmd

namespace cmd

open tools

/-- C2: for module-set maps whose versions are all valid semver (and whose
set names are distinct, as Go map keys are), `verifyVersions` fails with a
major-version-collision error iff two distinct sets both have stable
versions with the same major component; in particular `"v1.2.0"` and
`"v1.5.0"` in two sets collide while `"v0.3.0"` and `"v0.9.0"` pass. -/
theorem verifyVersions_major_collision_iff (l : ModuleSetMap)
    (hval : ∀ x ∈ l, semver.IsValid x.2.Version = true)
    (hkeys : (keys l).Nodup) :
    ((∃ maj a av b bv, verifyVersions l = .error (.majorCollision maj a av b bv)) ↔
      (∃ n1 s1 n2 s2, (n1, s1) ∈ l ∧ (n2, s2) ∈ l ∧ n1 ≠ n2 ∧
        isStableVersion s1.Version = true ∧ isStableVersion s2.Version = true ∧
        semver.Major s1.Version = semver.Major s2.Version))
    ∧ verifyVersions [(gs "a", ⟨gs "v1.2.0", []⟩), (gs "b", ⟨gs "v1.5.0", []⟩)] =
        .error (.majorCollision (gs "v1") (gs "a") (gs "v1.2.0") (gs "b") (gs "v1.5.0"))
    ∧ verifyVersions [(gs "a", ⟨gs "v0.3.0", []⟩), (gs "b", ⟨gs "v0.9.0", []⟩)] = .ok () := by
  refine ⟨⟨?_, ?_⟩, by decide, by decide⟩
  · rintro ⟨maj, a, av, b, bv, herr⟩
    have hnotok : ¬ (verifyVersions l = .ok ()) := by rw [herr]; simp
    rw [verifyVersions_ok_iff] at hnotok
    have hnp : ¬ l.Pairwise noCollide := fun hp => hnotok ⟨hval, hp⟩
    rw [List.pairwise_iff_getElem] at hnp
    push_neg at hnp
    obtain ⟨i, j, hi, hj, hij, hnc⟩ := hnp
    unfold noCollide at hnc
    push_neg at hnc
    obtain ⟨hsi, hsj, hmeq⟩ := hnc
    have hmi : i < (keys l).length := by
      simpa [keys, List.length_map] using hi
    have hmj : j < (keys l).length := by
      simpa [keys, List.length_map] using hj
    have hne : (l[i]).1 ≠ (l[j]).1 := by
      intro hEq
      have h1 : (keys l)[i] = (keys l)[j] := by
        simpa [keys, List.getElem_map] using hEq
      have := (hkeys.getElem_inj_iff).mp h1
      omega
    exact ⟨(l[i]).1, (l[i]).2, (l[j]).1, (l[j]).2,
      by simpa using List.getElem_mem hi, by simpa using List.getElem_mem hj,
      hne, hsi, hsj, hmeq⟩
  · rintro ⟨n1, s1, n2, s2, h1, h2, hne, hs1, hs2, hmeq⟩
    have hnp : ¬ l.Pairwise noCollide := by
      intro hp
      rw [List.pairwise_iff_getElem] at hp
      obtain ⟨i, hi, hieq⟩ := List.getElem_of_mem h1
      obtain ⟨j, hj, hjeq⟩ := List.getElem_of_mem h2
      have hij : i ≠ j := by
        intro hEq
        subst hEq
        rw [hieq] at hjeq
        exact hne (congrArg Prod.fst hjeq)
      rcases Nat.lt_or_ge i j with hlt | hge
      · have := hp i j hi hj hlt
        rw [hieq, hjeq] at this
        exact this hs1 hs2 hmeq
      · have hlt : j < i := by omega
        have := hp j i hj hi hlt
        rw [hieq, hjeq] at this
        exact this hs2 hs1 hmeq.symm
    have hnotok : ¬ (verifyVersions l = .ok ()) := by
      rw [verifyVersions_ok_iff]
      rintro ⟨-, hp⟩
      exact hnp hp
    cases hres : verifyVersions l with
    | ok u => cases u; exact absurd hres hnotok
    | error e =>
      have hres' : verifyVersionsGo l l [] = .error e := hres
      obtain ⟨maj, a, av, b, bv, rfl⟩ :=
        verifyVersionsGo_error_collision l l [] hval e hres'
      exact ⟨maj, a, av, b, bv, rfl⟩

/-- Witness for C2: the collision case is exhibited on the two-set map with
versions `"v1.2.0"` and `"v1.5.0"`, via the right-to-left direction. -/
theorem verifyVersions_major_collision_iff_witness :
    ∃ maj a av b bv,
      verifyVersions [(gs "a", ⟨gs "v1.2.0", []⟩), (gs "b", ⟨gs "v1.5.0", []⟩)] =
        .error (.majorCollision maj a av b bv) :=
  ((verifyVersions_major_collision_iff
      [(gs "a", ⟨gs "v1.2.0", []⟩), (gs "b", ⟨gs "v1.5.0", []⟩)]
      (by
        intro x hx
        rcases List.mem_cons.mp hx with rfl | hx2
        · decide
        · rcases List.mem_cons.mp hx2 with rfl | hx3
          · decide
          · exact absurd hx3 (List.not_mem_nil _)) (by decide)).1).mpr
    ⟨gs "a", ⟨gs "v1.2.0", []⟩, gs "b", ⟨gs "v1.5.0", []⟩,
      by decide, by decide, by decide, by decide, by decide, by decide⟩

/-- C4: `verifyVersions` rejects every module-set map containing a version
string that is not valid semver syntax; `"1.2"` is invalid and rejected
with an invalid-version error, `"v1.2.3"` and `"v0.9.0"` are accepted. -/
theorem verifyVersions_semver_gate :
    (∀ l : ModuleSetMap, (∃ x ∈ l, semver.IsValid x.2.Version = false) →
      ∃ e, verifyVersions l = .error e)
    ∧ semver.IsValid (gs "1.2") = false
    ∧ semver.IsValid (gs "v1.2.3") = true
    ∧ semver.IsValid (gs "v0.9.0") = true
    ∧ verifyVersions [(gs "s", ⟨gs "1.2", []⟩)] =
        .error (.invalidVersion (gs "s") (gs "1.2"))
    ∧ verifyVersions [(gs "s", ⟨gs "v1.2.3", []⟩)] = .ok ()
    ∧ verifyVersions [(gs "s", ⟨gs "v0.9.0", []⟩)] = .ok () := by
  refine ⟨?_, by decide, by decide, by decide, by decide, by decide, by decide⟩
  rintro l ⟨x, hx, hinv⟩
  cases hres : verifyVersions l with
  | error e => exact ⟨e, rfl⟩
  | ok u =>
    cases u
    have hall := ((verifyVersions_ok_iff l).mp hres).1 x hx
    rw [hinv] at hall
    exact absurd hall (by simp)

/-- Witness for C4: the rejection branch applied to the singleton map with
version `"1.2"`. -/
theorem verifyVersions_semver_gate_witness :
    ∃ e, verifyVersions [(gs "s", ⟨gs "1.2", []⟩)] = .error e :=
  verifyVersions_semver_gate.1 [(gs "s", ⟨gs "1.2", []⟩)]
    ⟨(gs "s", ⟨gs "1.2", []⟩), by decide, by decide⟩

/-- C9: the pass/fail outcome of `verifyVersions` is invariant under
permuting the iteration order of the module sets. -/
theorem verifyVersions_perm_invariant (l l' : ModuleSetMap) (h : l.Perm l') :
    (verifyVersions l = .ok () ↔ verifyVersions l' = .ok ()) := by
  rw [verifyVersions_ok_iff, verifyVersions_ok_iff]
  have hsymm : ∀ {a b : GoStr × ModuleSet}, noCollide a b → noCollide b a :=
    fun hab hb ha hmeq => (hab ha hb) hmeq.symm
  constructor
  · rintro ⟨hval, hpw⟩
    exact ⟨fun x hx => hval x (h.mem_iff.mpr hx),
      (List.Perm.pairwise_iff hsymm h).mp hpw⟩
  · rintro ⟨hval, hpw⟩
    exact ⟨fun x hx => hval x (h.mem_iff.mp hx),
      (List.Perm.pairwise_iff hsymm h).mpr hpw⟩

/-- Witness for C9: swapping a two-set map preserves the pass outcome. -/
theorem verifyVersions_perm_invariant_witness :
    verifyVersions [(gs "a", ⟨gs "v1.2.0", []⟩), (gs "b", ⟨gs "v0.9.0", []⟩)] = .ok () ↔
    verifyVersions [(gs "b", ⟨gs "v0.9.0", []⟩), (gs "a", ⟨gs "v1.2.0", []⟩)] = .ok () :=
  verifyVersions_perm_invariant _ _ (List.Perm.swap _ _ _)

end cmd

namespace tools

/-- C7: `CombineModuleTagNamesAndVersion` is a pure total function mapping
each tag name in order, the root sentinel to the bare version and every
other name `t` to `t ++ "/" ++ version`; on `["sdk/metric", ROOT]` with
version `"v1.2.0"` it yields `["sdk/metric/v1.2.0", "v1.2.0"]`. -/
theorem CombineModuleTagNamesAndVersion_spec :
    (∀ (modTagNames : List ModuleTagName) (version : GoStr),
      CombineModuleTagNamesAndVersion modTagNames version =
        modTagNames.map
          (fun t => if t = repoRootTag then version else t ++ gs "/" ++ version))
    ∧ CombineModuleTagNamesAndVersion [gs "sdk/metric", repoRootTag] (gs "v1.2.0") =
        [gs "sdk/metric/v1.2.0", gs "v1.2.0"] := by
  constructor
  · intro modTagNames version
    induction modTagNames with
    | nil => rfl
    | cons t rest ih => simp [CombineModuleTagNamesAndVersion, ih]
  · decide

end tools

namespace tools

/-! Lemmas for `ModuleFilePathToTagName` (C10). -/

theorem trimPrefix_length_lt (s pre : GoStr) (hpre : pre ≠ [])
    (h : pre.isPrefixOf s = true) : (trimPrefix s pre).length < s.length := by
  rw [trimPrefix, if_pos h]
  rw [List.length_drop]
  have hle : pre.length ≤ s.length := (List.isPrefixOf_iff_prefix.mp h).length_le
  have hpos : 0 < pre.length := List.length_pos.mpr hpre
  omega

theorem trimSuffix_length_le (s suf : GoStr) : (trimSuffix s suf).length ≤ s.length := by
  rw [trimSuffix]
  split
  · rw [List.length_take]; omega
  · exact le_refl _

theorem trimSuffix_length_lt (s suf : GoStr) (hsuf : suf ≠ [])
    (h : suf.isSuffixOf s = true) : (trimSuffix s suf).length < s.length := by
  rw [trimSuffix, if_pos h]
  rw [List.length_take]
  have hle : suf.length ≤ s.length := (List.isSuffixOf_iff_suffix.mp h).length_le
  have hpos : 0 < suf.length := List.length_pos.mpr hsuf
  omega

/-- C10: `ModuleFilePathToTagName` errors exactly when the file path
neither starts with `repoRoot ++ "/"` nor ends with `"/go.mod"`; a path
outside the repository root that still ends in `"/go.mod"` is accepted
(e.g. `"/other/root/sdk/go.mod"` under root `"/repo"`), and the empty
path always errors. -/
theorem ModuleFilePathToTagName_spec (modFilePath repoRoot : GoStr) :
    ((∃ e, ModuleFilePathToTagName modFilePath repoRoot = .error e) ↔
      ((repoRoot ++ gs "/").isPrefixOf modFilePath = false ∧
        (gs "/go.mod").isSuffixOf modFilePath = false))
    ∧ ModuleFilePathToTagName (gs "/other/root/sdk/go.mod") (gs "/repo") =
        .ok (gs "/other/root/sdk")
    ∧ ModuleFilePathToTagName [] repoRoot = .error (.notInRepoRoot [] repoRoot) := by
  refine ⟨?_, by decide, ?_⟩
  · by_cases hp : (repoRoot ++ gs "/").isPrefixOf modFilePath = true
    · have hlt : (trimSuffix (trimPrefix modFilePath (repoRoot ++ gs "/"))
          (gs "/go.mod")).length < modFilePath.length :=
        lt_of_le_of_lt (trimSuffix_length_le _ _)
          (trimPrefix_length_lt _ _ (by simp [gs]) hp)
      have hne : trimSuffix (trimPrefix modFilePath (repoRoot ++ gs "/"))
          (gs "/go.mod") ≠ modFilePath := by
        intro hEq
        rw [hEq] at hlt
        omega
      constructor
      · rintro ⟨e, he⟩
        rw [ModuleFilePathToTagName, if_neg hne] at he
        split at he <;> exact absurd he (by simp)
      · rintro ⟨hcontra, -⟩
        rw [hp] at hcontra
        exact absurd hcontra (by simp)
    · have hp' : (repoRoot ++ gs "/").isPrefixOf modFilePath = false := by
        revert hp; cases (repoRoot ++ gs "/").isPrefixOf modFilePath <;> simp
      have hpeq : trimPrefix modFilePath (repoRoot ++ gs "/") = modFilePath := by
        rw [trimPrefix, if_neg (by simp [hp'])]
      by_cases hs : (gs "/go.mod").isSuffixOf modFilePath = true
      · have hlt : (trimSuffix (trimPrefix modFilePath (repoRoot ++ gs "/"))
            (gs "/go.mod")).length < modFilePath.length := by
          rw [hpeq]
          exact trimSuffix_length_lt _ _ (by simp [gs]) hs
        have hne : trimSuffix (trimPrefix modFilePath (repoRoot ++ gs "/"))
            (gs "/go.mod") ≠ modFilePath := by
          intro hEq
          rw [hEq] at hlt
          omega
        constructor
        · rintro ⟨e, he⟩
          rw [ModuleFilePathToTagName, if_neg hne] at he
          split at he <;> exact absurd he (by simp)
        · rintro ⟨-, hcontra⟩
          rw [hs] at hcontra
          exact absurd hcontra (by simp)
      · have hs' : (gs "/go.mod").isSuffixOf modFilePath = false := by
          revert hs; cases (gs "/go.mod").isSuffixOf modFilePath <;> simp
        have hseq : trimSuffix modFilePath (gs "/go.mod") = modFilePath := by
          rw [trimSuffix, if_neg (by simp [hs'])]
        have heq : trimSuffix (trimPrefix modFilePath (repoRoot ++ gs "/"))
            (gs "/go.mod") = modFilePath := by rw [hpeq, hseq]
        constructor
        · intro _
          exact ⟨hp', hs'⟩
        · intro _
          exact ⟨.notInRepoRoot modFilePath repoRoot,
            by rw [ModuleFilePathToTagName, if_pos heq]⟩
  · have hp' : (repoRoot ++ gs "/").isPrefixOf ([] : GoStr) = false := by
      cases hcase : (repoRoot ++ gs "/").isPrefixOf ([] : GoStr)
      · rfl
      · have := List.isPrefixOf_iff_prefix.mp hcase
        have := List.prefix_nil.mp this
        have : repoRoot ++ gs "/" ≠ [] := by simp [gs]
        simp_all
    have hpeq : trimPrefix [] (repoRoot ++ gs "/") = [] := by
      rw [trimPrefix, if_neg (by simp [hp'])]
    have hseq : trimSuffix ([] : GoStr) (gs "/go.mod") = [] := by
      rw [trimSuffix]
      split
      · simp
      · rfl
    have heq0 : trimSuffix (trimPrefix [] (repoRoot ++ gs "/")) (gs "/go.mod") = [] := by
      rw [hpeq]; exact hseq
    rw [ModuleFilePathToTagName, if_pos heq0]

end tools

namespace tools

/-! Lemmas for `BuildModuleMap` (C5). -/

/-- All module occurrences across the sets, in processing order. -/
def allPaths : ModuleSetMap → List ModulePath
  | [] => []
  | (_, mset) :: rest => mset.Modules ++ allPaths rest

theorem mem_allPaths {msm : ModuleSetMap} {p : ModulePath} :
    p ∈ allPaths msm ↔ ∃ x ∈ msm, p ∈ x.2.Modules := by
  induction msm with
  | nil =>
    constructor
    · intro h
      exact absurd h (List.not_mem_nil _)
    · rintro ⟨x, hx, -⟩
      exact absurd hx (List.not_mem_nil _)
  | cons x rest ih =>
    obtain ⟨name, mset⟩ := x
    rw [show allPaths ((name, mset) :: rest) = mset.Modules ++ allPaths rest from rfl,
      List.mem_append, ih]
    constructor
    · rintro (hin | ⟨y, hy, hpy⟩)
      · exact ⟨(name, mset), List.mem_cons_self _ _, hin⟩
      · exact ⟨y, List.mem_cons_of_mem _ hy, hpy⟩
    · rintro ⟨y, hy, hpy⟩
      rcases List.mem_cons.mp hy with rfl | hy'
      · exact Or.inl hpy
      · exact Or.inr ⟨y, hy', hpy⟩

theorem addSetModules_ok (excl : List ModulePath) (setName version : GoStr) :
    ∀ (ps : List ModulePath) (acc : ModuleInfoMap),
      ps.Nodup → (∀ p ∈ ps, p ∉ excl) → (∀ p ∈ ps, lookupA p acc = none) →
      ∃ acc', addSetModules excl setName version ps acc = .ok acc' ∧
        (∀ p ∈ ps, lookupA p acc' = some ⟨setName, version⟩) ∧
        (∀ q, q ∉ ps → lookupA q acc' = lookupA q acc) := by
  intro ps
  induction ps with
  | nil =>
    intro acc _ _ _
    exact ⟨acc, rfl, by simp, fun q _ => rfl⟩
  | cons p rest ih =>
    intro acc hnd hexcl hfresh
    have hpfresh : lookupA p acc = none := hfresh p (List.mem_cons_self _ _)
    have hpexcl : p ∉ excl := hexcl p (List.mem_cons_self _ _)
    have hstep : addSetModules excl setName version (p :: rest) acc =
        addSetModules excl setName version rest (mapInsert acc p ⟨setName, version⟩) := by
      simp [addSetModules, hpfresh, hpexcl]
    obtain ⟨hpnotin, hndrest⟩ := List.nodup_cons.mp hnd
    obtain ⟨acc', hok, hin, hout⟩ := ih (mapInsert acc p ⟨setName, version⟩) hndrest
      (fun q hq => hexcl q (List.mem_cons_of_mem _ hq))
      (fun q hq => by
        rw [lookupA_mapInsert_ne q p _ acc (fun hEq => hpnotin (hEq ▸ hq))]
        exact hfresh q (List.mem_cons_of_mem _ hq))
    refine ⟨acc', by rw [hstep]; exact hok, ?_, ?_⟩
    · intro q hq
      rcases List.mem_cons.mp hq with rfl | hq'
      · rw [hout q hpnotin, lookupA_mapInsert_self]
      · exact hin q hq'
    · intro q hq
      have hqne : q ≠ p := fun hEq => hq (hEq ▸ List.mem_cons_self _ _)
      have hqrest : q ∉ rest := fun hqr => hq (List.mem_cons_of_mem _ hqr)
      rw [hout q hqrest, lookupA_mapInsert_ne q p _ acc hqne]

theorem addSetModules_err (excl : List ModulePath) (setName version : GoStr)
    (P : ModulePath → ModuleInfo → Prop) (Q : ModulePath → Prop) :
    ∀ (ps : List ModulePath) (acc : ModuleInfoMap),
      (∀ p ∈ ps, p ∉ excl) →
      (∀ p info, lookupA p acc = some info → P p info) →
      (∀ p ∈ ps, P p ⟨setName, version⟩) →
      (∀ p ∈ ps, Q p) →
      (¬ ps.Nodup ∨ ∃ p ∈ ps, (lookupA p acc).isSome = true) →
      ∃ p info, addSetModules excl setName version ps acc =
          .error (.duplicateModule p info.ModuleSetName setName) ∧ P p info ∧ Q p := by
  intro ps
  induction ps with
  | nil =>
    intro acc _ _ _ _ hbad
    rcases hbad with hnd | ⟨p, hp, -⟩
    · exact absurd List.nodup_nil hnd
    · exact absurd hp (List.not_mem_nil _)
  | cons p rest ih =>
    intro acc hexcl hP hPnew hQ hbad
    cases hl : lookupA p acc with
    | some prev =>
      exact ⟨p, prev, by simp [addSetModules, hl], hP p prev hl,
        hQ p (List.mem_cons_self _ _)⟩
    | none =>
      have hpexcl : p ∉ excl := hexcl p (List.mem_cons_self _ _)
      have hstep : addSetModules excl setName version (p :: rest) acc =
          addSetModules excl setName version rest (mapInsert acc p ⟨setName, version⟩) := by
        simp [addSetModules, hl, hpexcl]
      have hbad' : ¬ rest.Nodup ∨
          ∃ q ∈ rest, (lookupA q (mapInsert acc p ⟨setName, version⟩)).isSome = true := by
        rcases hbad with hnd | ⟨q, hq, hqs⟩
        · by_cases hpr : p ∈ rest
          · exact Or.inr ⟨p, hpr, by rw [lookupA_mapInsert_self]; rfl⟩
          · exact Or.inl (fun hndr => hnd (List.nodup_cons.mpr ⟨hpr, hndr⟩))
        · rcases List.mem_cons.mp hq with rfl | hq'
          · rw [hl] at hqs
            exact absurd hqs (by simp)
          · refine Or.inr ⟨q, hq', ?_⟩
            by_cases hqp : q = p
            · subst hqp
              rw [lookupA_mapInsert_self]
              rfl
            · rw [lookupA_mapInsert_ne q p _ acc hqp]
              exact hqs
      have hP' : ∀ q info,
          lookupA q (mapInsert acc p ⟨setName, version⟩) = some info → P q info := by
        intro q info hqi
        by_cases hqp : q = p
        · subst hqp
          rw [lookupA_mapInsert_self] at hqi
          rw [← Option.some.inj hqi]
          exact hPnew q (List.mem_cons_self _ _)
        · rw [lookupA_mapInsert_ne q p _ acc hqp] at hqi
          exact hP q info hqi
      obtain ⟨q, info, herr, hPq, hQq⟩ := ih (mapInsert acc p ⟨setName, version⟩)
        (fun r hr => hexcl r (List.mem_cons_of_mem _ hr)) hP'
        (fun r hr => hPnew r (List.mem_cons_of_mem _ hr))
        (fun r hr => hQ r (List.mem_cons_of_mem _ hr)) hbad'
      exact ⟨q, info, by rw [hstep]; exact herr, hPq, hQq⟩

theorem addSetModules_ok_inv (excl : List ModulePath) (setName version : GoStr) :
    ∀ (ps : List ModulePath) (acc acc' : ModuleInfoMap),
      addSetModules excl setName version ps acc = .ok acc' →
      ps.Nodup ∧ (∀ p ∈ ps, lookupA p acc = none) ∧
      (∀ q, lookupA q acc' =
        if q ∈ ps then some ⟨setName, version⟩ else lookupA q acc) := by
  intro ps
  induction ps with
  | nil =>
    intro acc acc' h
    obtain rfl : acc = acc' := by simpa [addSetModules] using h
    exact ⟨List.nodup_nil, by simp, fun q => by simp⟩
  | cons p rest ih =>
    intro acc acc' h
    cases hl : lookupA p acc with
    | some prev =>
      rw [show addSetModules excl setName version (p :: rest) acc =
          .error (.duplicateModule p prev.ModuleSetName setName) from by
        simp [addSetModules, hl]] at h
      exact absurd h (by simp)
    | none =>
      by_cases hpexcl : p ∈ excl
      · rw [show addSetModules excl setName version (p :: rest) acc =
            .error (.excludedModuleVersioned p) from by simp [addSetModules, hl, hpexcl]] at h
        exact absurd h (by simp)
      · rw [show addSetModules excl setName version (p :: rest) acc =
            addSetModules excl setName version rest
              (mapInsert acc p ⟨setName, version⟩) from by
          simp [addSetModules, hl, hpexcl]] at h
        obtain ⟨hnd, hfresh, hdesc⟩ := ih _ acc' h
        have hpnotin : p ∉ rest := by
          intro hpr
          have hcontra := hfresh p hpr
          rw [lookupA_mapInsert_self] at hcontra
          exact absurd hcontra (by simp)
        refine ⟨List.nodup_cons.mpr ⟨hpnotin, hnd⟩, ?_, ?_⟩
        · intro q hq
          rcases List.mem_cons.mp hq with rfl | hq'
          · exact hl
          · have hq2 := hfresh q hq'
            rwa [lookupA_mapInsert_ne q p _ acc (fun hEq => hpnotin (hEq ▸ hq'))] at hq2
        · intro q
          by_cases hq : q ∈ p :: rest
          · rw [if_pos hq]
            rcases List.mem_cons.mp hq with rfl | hq'
            · rw [hdesc q, if_neg hpnotin, lookupA_mapInsert_self]
            · rw [hdesc q, if_pos hq']
          · have hqp : q ≠ p := fun hEq => hq (hEq ▸ List.mem_cons_self _ _)
            have hqr : q ∉ rest := fun hr => hq (List.mem_cons_of_mem _ hr)
            rw [if_neg hq, hdesc q, if_neg hqr, lookupA_mapInsert_ne q p _ acc hqp]

end tools

namespace tools

theorem buildModuleMapGo_ok (excl : List ModulePath) :
    ∀ (msm : ModuleSetMap) (acc : ModuleInfoMap),
      (allPaths msm).Nodup → (∀ p ∈ allPaths msm, p ∉ excl) →
      (∀ p ∈ allPaths msm, lookupA p acc = none) →
      ∃ m, buildModuleMapGo excl msm acc = .ok m ∧
        (∀ x ∈ msm, ∀ p ∈ x.2.Modules, lookupA p m = some ⟨x.1, x.2.Version⟩) ∧
        (∀ q, q ∉ allPaths msm → lookupA q m = lookupA q acc) := by
  intro msm
  induction msm with
  | nil =>
    intro acc _ _ _
    refine ⟨acc, rfl, ?_, fun q _ => rfl⟩
    intro x hx
    exact absurd hx (List.not_mem_nil _)
  | cons x rest ih =>
    obtain ⟨setName, mset⟩ := x
    intro acc hnd hexcl hfresh
    have hall : allPaths ((setName, mset) :: rest) = mset.Modules ++ allPaths rest := rfl
    rw [hall] at hnd hexcl hfresh
    obtain ⟨hndA, hndB, hdisj⟩ := List.nodup_append.mp hnd
    obtain ⟨acc1, hok1, hin1, hout1⟩ :=
      addSetModules_ok excl setName mset.Version mset.Modules acc hndA
        (fun p hp => hexcl p (List.mem_append.mpr (Or.inl hp)))
        (fun p hp => hfresh p (List.mem_append.mpr (Or.inl hp)))
    obtain ⟨m, hok2, hin2, hout2⟩ := ih acc1 hndB
      (fun p hp => hexcl p (List.mem_append.mpr (Or.inr hp)))
      (fun p hp => by
        rw [hout1 p (fun hpA => hdisj hpA hp)]
        exact hfresh p (List.mem_append.mpr (Or.inr hp)))
    refine ⟨m, ?_, ?_, ?_⟩
    · rw [show buildModuleMapGo excl ((setName, mset) :: rest) acc =
          buildModuleMapGo excl rest acc1 from by simp [buildModuleMapGo, hok1]]
      exact hok2
    · intro y hy p hp
      rcases List.mem_cons.mp hy with rfl | hy'
      · rw [hout2 p (fun hpB => hdisj hp hpB), hin1 p hp]
      · exact hin2 y hy' p hp
    · intro q hq
      rw [hall] at hq
      have hqA : q ∉ mset.Modules := fun hqa => hq (List.mem_append.mpr (Or.inl hqa))
      have hqB : q ∉ allPaths rest := fun hqb => hq (List.mem_append.mpr (Or.inr hqb))
      rw [hout2 q hqB, hout1 q hqA]

theorem buildModuleMapGo_err (excl : List ModulePath)
    (P : ModulePath → ModuleInfo → Prop) (Q : ModulePath → GoStr → Prop) :
    ∀ (msm : ModuleSetMap) (acc : ModuleInfoMap),
      (∀ p ∈ allPaths msm, p ∉ excl) →
      (∀ p info, lookupA p acc = some info → P p info) →
      (∀ x ∈ msm, ∀ p ∈ x.2.Modules, P p ⟨x.1, x.2.Version⟩) →
      (∀ x ∈ msm, ∀ p ∈ x.2.Modules, Q p x.1) →
      (¬ (allPaths msm).Nodup ∨ ∃ p ∈ allPaths msm, (lookupA p acc).isSome = true) →
      ∃ p info s2, buildModuleMapGo excl msm acc =
          .error (.duplicateModule p info.ModuleSetName s2) ∧ P p info ∧ Q p s2 := by
  intro msm
  induction msm with
  | nil =>
    intro acc _ _ _ _ hbad
    rcases hbad with hnd | ⟨p, hp, -⟩
    · exact absurd List.nodup_nil hnd
    · exact absurd hp (List.not_mem_nil _)
  | cons x rest ih =>
    obtain ⟨setName, mset⟩ := x
    intro acc hexcl hP hPnew hQ hbad
    have hall : allPaths ((setName, mset) :: rest) = mset.Modules ++ allPaths rest := rfl
    rw [hall] at hexcl hbad
    by_cases hbadA : ¬ mset.Modules.Nodup ∨
        ∃ p ∈ mset.Modules, (lookupA p acc).isSome = true
    · obtain ⟨p, info, herr, hPp, hQp⟩ := addSetModules_err excl setName mset.Version P
        (fun q => Q q setName) mset.Modules acc
        (fun p hp => hexcl p (List.mem_append.mpr (Or.inl hp))) hP
        (fun p hp => hPnew (setName, mset) (List.mem_cons_self _ _) p hp)
        (fun p hp => hQ (setName, mset) (List.mem_cons_self _ _) p hp) hbadA
      exact ⟨p, info, setName, by simp [buildModuleMapGo, herr], hPp, hQp⟩
    · push_neg at hbadA
      obtain ⟨hndA, hfreshA⟩ := hbadA
      have hfreshA' : ∀ p ∈ mset.Modules, lookupA p acc = none := by
        intro p hp
        cases hcase : lookupA p acc with
        | none => rfl
        | some v => exact absurd (by rw [hcase]; rfl) (hfreshA p hp)
      obtain ⟨acc1, hok1, hin1, hout1⟩ :=
        addSetModules_ok excl setName mset.Version mset.Modules acc hndA
          (fun p hp => hexcl p (List.mem_append.mpr (Or.inl hp))) hfreshA'
      have hbad' : ¬ (allPaths rest).Nodup ∨
          ∃ p ∈ allPaths rest, (lookupA p acc1).isSome = true := by
        rcases hbad with hnd | ⟨q, hq, hqs⟩
        · by_cases hndB : (allPaths rest).Nodup
          · have hnotdisj : ¬ mset.Modules.Disjoint (allPaths rest) := by
              intro hdisj
              exact hnd (List.nodup_append.mpr ⟨hndA, hndB, hdisj⟩)
            rw [List.disjoint_left] at hnotdisj
            push_neg at hnotdisj
            obtain ⟨q, hqA, hqB⟩ := hnotdisj
            refine Or.inr ⟨q, hqB, ?_⟩
            rw [hin1 q hqA]
            rfl
          · exact Or.inl hndB
        · rcases List.mem_append.mp hq with hqA | hqB
          · rw [hfreshA' q hqA] at hqs
            exact absurd hqs (by simp)
          · refine Or.inr ⟨q, hqB, ?_⟩
            by_cases hqA : q ∈ mset.Modules
            · rw [hin1 q hqA]
              rfl
            · rw [hout1 q hqA]
              exact hqs
      have hP' : ∀ q info, lookupA q acc1 = some info → P q info := by
        intro q info hqi
        by_cases hqA : q ∈ mset.Modules
        · rw [hin1 q hqA] at hqi
          rw [← Option.some.inj hqi]
          exact hPnew (setName, mset) (List.mem_cons_self _ _) q hqA
        · rw [hout1 q hqA] at hqi
          exact hP q info hqi
      obtain ⟨p, info, s2, herr, hPp, hQp⟩ := ih acc1
        (fun p hp => hexcl p (List.mem_append.mpr (Or.inr hp))) hP'
        (fun y hy p hp => hPnew y (List.mem_cons_of_mem _ hy) p hp)
        (fun y hy p hp => hQ y (List.mem_cons_of_mem _ hy) p hp) hbad'
      refine ⟨p, info, s2, ?_, hPp, hQp⟩
      rw [show buildModuleMapGo excl ((setName, mset) :: rest) acc =
          buildModuleMapGo excl rest acc1 from by simp [buildModuleMapGo, hok1]]
      exact herr

theorem buildModuleMapGo_ok_inv (excl : List ModulePath) :
    ∀ (msm : ModuleSetMap) (acc m : ModuleInfoMap),
      buildModuleMapGo excl msm acc = .ok m →
      (allPaths msm).Nodup ∧ (∀ p ∈ allPaths msm, lookupA p acc = none) := by
  intro msm
  induction msm with
  | nil =>
    intro acc m _
    refine ⟨List.nodup_nil, ?_⟩
    intro p hp
    exact absurd hp (List.not_mem_nil _)
  | cons x rest ih =>
    obtain ⟨setName, mset⟩ := x
    intro acc m h
    cases hstep : addSetModules excl setName mset.Version mset.Modules acc with
    | error e =>
      rw [show buildModuleMapGo excl ((setName, mset) :: rest) acc = .error e from by
        simp [buildModuleMapGo, hstep]] at h
      exact absurd h (by simp)
    | ok acc1 =>
      rw [show buildModuleMapGo excl ((setName, mset) :: rest) acc =
          buildModuleMapGo excl rest acc1 from by simp [buildModuleMapGo, hstep]] at h
      obtain ⟨hndA, hfreshA, hdesc⟩ :=
        addSetModules_ok_inv excl setName mset.Version mset.Modules acc acc1 hstep
      obtain ⟨hndB, hfreshB⟩ := ih acc1 m h
      have hdisj : mset.Modules.Disjoint (allPaths rest) := by
        intro a haA haB
        have hcontra := hfreshB a haB
        rw [hdesc a, if_pos haA] at hcontra
        exact absurd hcontra (by simp)
      have hall : allPaths ((setName, mset) :: rest) = mset.Modules ++ allPaths rest := rfl
      constructor
      · rw [hall]
        exact List.nodup_append.mpr ⟨hndA, hndB, hdisj⟩
      · intro p hp
        rw [hall] at hp
        rcases List.mem_append.mp hp with hpA | hpB
        · exact hfreshA p hpA
        · have hp2 := hfreshB p hpB
          rw [hdesc p] at hp2
          by_cases hpA : p ∈ mset.Modules
          · rw [if_pos hpA] at hp2
            exact absurd hp2 (by simp)
          · rwa [if_neg hpA] at hp2

theorem nodup_allPaths_unique (msm : ModuleSetMap) (h : (allPaths msm).Nodup) :
    ∀ x1 ∈ msm, ∀ x2 ∈ msm, ∀ p, p ∈ x1.2.Modules → p ∈ x2.2.Modules → x1 = x2 := by
  induction msm with
  | nil =>
    intro x1 h1
    exact absurd h1 (List.not_mem_nil _)
  | cons y rest ih =>
    obtain ⟨name, mset⟩ := y
    rw [show allPaths ((name, mset) :: rest) = mset.Modules ++ allPaths rest from rfl,
      List.nodup_append] at h
    obtain ⟨hndA, hndB, hdisj⟩ := h
    intro x1 h1 x2 h2 p hp1 hp2
    rcases List.mem_cons.mp h1 with rfl | h1' <;> rcases List.mem_cons.mp h2 with rfl | h2'
    · rfl
    · exact (hdisj hp1 (mem_allPaths.mpr ⟨x2, h2', hp2⟩)).elim
    · exact (hdisj hp2 (mem_allPaths.mpr ⟨x1, h1', hp1⟩)).elim
    · exact ih hndB x1 h1' x2 h2' p hp1 hp2

end tools

namespace tools

/-- C5 counterexample: in the manifest whose single set `"A"` lists module
`"m"` twice, every module appears in (at most) one set — there is only the
one set, as the key list shows — and nothing is excluded, yet
`BuildModuleMap` fails with a duplicate-module error naming `"A"` on both
sides instead of succeeding. -/
theorem BuildModuleMap_within_set_duplicate_counterexample :
    BuildModuleMap [(gs "A", ⟨gs "v1.0.0", [gs "m", gs "m"]⟩)] [] =
      .error (.duplicateModule (gs "m") (gs "A") (gs "A")) ∧
    keys [(gs "A", (⟨gs "v1.0.0", [gs "m", gs "m"]⟩ : ModuleSet))] = [gs "A"] := by
  decide

/-- C5 (amended): `BuildModuleMap` fails whenever some module path occurs
in the module lists of two distinct sets; when no listed module is
excluded, the error is a duplicate-module error naming a path and two
(possibly equal) set names whose sets both list it; and it succeeds,
mapping each listed module to its set's name and version, exactly when
each module occurs at most once across all module lists (and none is
excluded). -/
theorem BuildModuleMap_spec (msm : ModuleSetMap) (excl : List ModulePath) :
    ((∃ n1 mset1 n2 mset2 p, (n1, mset1) ∈ msm ∧ (n2, mset2) ∈ msm ∧ n1 ≠ n2 ∧
        p ∈ mset1.Modules ∧ p ∈ mset2.Modules) →
      ∃ e, BuildModuleMap msm excl = .error e)
    ∧ ((∀ p ∈ allPaths msm, p ∉ excl) → ¬ (allPaths msm).Nodup →
        ∃ p s1 s2, BuildModuleMap msm excl = .error (.duplicateModule p s1 s2) ∧
          (∃ mset, (s1, mset) ∈ msm ∧ p ∈ mset.Modules) ∧
          (∃ mset, (s2, mset) ∈ msm ∧ p ∈ mset.Modules))
    ∧ ((allPaths msm).Nodup → (∀ p ∈ allPaths msm, p ∉ excl) →
        ∃ m, BuildModuleMap msm excl = .ok m ∧
          ∀ x ∈ msm, ∀ p ∈ x.2.Modules, lookupA p m = some ⟨x.1, x.2.Version⟩) := by
  refine ⟨?_, ?_, ?_⟩
  · rintro ⟨n1, mset1, n2, mset2, p, h1, h2, hne, hp1, hp2⟩
    cases hres : BuildModuleMap msm excl with
    | error e => exact ⟨e, rfl⟩
    | ok m =>
      have hnd := (buildModuleMapGo_ok_inv excl msm [] m hres).1
      have heq := nodup_allPaths_unique msm hnd (n1, mset1) h1 (n2, mset2) h2 p hp1 hp2
      exact absurd (congrArg Prod.fst heq) hne
  · intro hexcl hnotnd
    obtain ⟨p, info, s2, herr, hPp, hQp⟩ := buildModuleMapGo_err excl
      (fun p info => ∃ mset, (info.ModuleSetName, mset) ∈ msm ∧ p ∈ mset.Modules)
      (fun p s => ∃ mset, (s, mset) ∈ msm ∧ p ∈ mset.Modules)
      msm [] hexcl
      (fun p info hcontra => by simp [lookupA] at hcontra)
      (fun x hx p hp => ⟨x.2, by simpa using hx, hp⟩)
      (fun x hx p hp => ⟨x.2, by simpa using hx, hp⟩)
      (Or.inl hnotnd)
    exact ⟨p, info.ModuleSetName, s2, herr, hPp, hQp⟩
  · intro hnd hexcl
    obtain ⟨m, hok, hin, -⟩ := buildModuleMapGo_ok excl msm [] hnd hexcl (fun p hp => rfl)
    exact ⟨m, hok, hin⟩

/-- Witness for C5: the failure branch applied to a manifest where module
`"m"` is listed by the two distinct sets `"A"` and `"B"`. -/
theorem BuildModuleMap_spec_witness :
    ∃ e, BuildModuleMap
        [(gs "A", ⟨gs "v1.0.0", [gs "m"]⟩), (gs "B", ⟨gs "v0.2.0", [gs "m"]⟩)] [] =
      .error e :=
  (BuildModuleMap_spec
      [(gs "A", ⟨gs "v1.0.0", [gs "m"]⟩), (gs "B", ⟨gs "v0.2.0", [gs "m"]⟩)] []).1
    ⟨gs "A", ⟨gs "v1.0.0", [gs "m"]⟩, gs "B", ⟨gs "v0.2.0", [gs "m"]⟩, gs "m",
      by decide, by decide, by decide, by decide, by decide⟩

/-! Lemmas for `BuildModulePathMap` (C6). -/

theorem BuildModulePathMap_foldl_not_excluded (excl : List ModulePath)
    (p : ModulePath) (hp : p ∈ excl) :
    ∀ (walk : List WalkFile) (acc : ModulePathMap),
      lookupA p acc = none →
      lookupA p (walk.foldl
        (fun modPathMap f =>
          if filepathBase f.filePath = gs "go.mod" then
            if f.declaredModPath ∈ excl then modPathMap
            else mapInsert modPathMap f.declaredModPath f.filePath
          else modPathMap) acc) = none := by
  intro walk
  induction walk with
  | nil => intro acc hacc; exact hacc
  | cons f rest ih =>
    intro acc hacc
    rw [List.foldl_cons]
    apply ih
    by_cases hbase : filepathBase f.filePath = gs "go.mod"
    · by_cases hex : f.declaredModPath ∈ excl
      · rw [if_pos hbase, if_pos hex]
        exact hacc
      · rw [if_pos hbase, if_neg hex]
        have hne : p ≠ f.declaredModPath := fun hEq => hex (hEq ▸ hp)
        rw [lookupA_mapInsert_ne p f.declaredModPath _ acc hne]
        exact hacc
    · rw [if_neg hbase]
      exact hacc

/-- C6: a module path listed in `excludedModules` is never a key of the
map built by `BuildModulePathMap`, whatever declaration files exist on
disk, and consequently `verifyAllModulesInSet` never reports it as an
unregistered (discovered but not-in-a-set) module. -/
theorem BuildModulePathMap_exclusion (excl : List ModulePath)
    (walk : List WalkFile) (p : ModulePath) (hp : p ∈ excl) :
    lookupA p (BuildModulePathMap excl walk) = none ∧
    p ∉ keys (BuildModulePathMap excl walk) ∧
    ∀ (im : ModuleInfoMap) (f : ModuleFilePath),
      cmd.verifyAllModulesInSet (BuildModulePathMap excl walk) im ≠
        .error (.unregisteredModule p f) := by
  have hnone : lookupA p (BuildModulePathMap excl walk) = none :=
    BuildModulePathMap_foldl_not_excluded excl p hp walk [] rfl
  have hkeys : p ∉ keys (BuildModulePathMap excl walk) :=
    (lookupA_eq_none_iff p _).mp hnone
  refine ⟨hnone, hkeys, ?_⟩
  intro im f herr
  rw [cmd.verifyAllModulesInSet] at herr
  cases hd : cmd.checkDiscovered im (BuildModulePathMap excl walk) with
  | error e =>
    rw [hd] at herr
    obtain rfl : e = .unregisteredModule p f := by simpa using herr
    have hmem := cmd.checkDiscovered_error_mem im (BuildModulePathMap excl walk) p f hd
    have : p ∈ keys (BuildModulePathMap excl walk) := by
      rw [show keys (BuildModulePathMap excl walk) =
          (BuildModulePathMap excl walk).map Prod.fst from rfl]
      exact List.mem_map.mpr ⟨(p, f), hmem, rfl⟩
    exact hkeys this
  | ok u =>
    cases u
    rw [hd] at herr
    obtain ⟨q, s, hqs⟩ :=
      cmd.checkRegistered_error_shape (BuildModulePathMap excl walk) im _ herr
    exact absurd hqs (by simp)

/-- Witness for C6: even with a stray `go.mod` on disk declaring the
excluded module `"x"`, the built map has no binding for `"x"`. -/
theorem BuildModulePathMap_exclusion_witness :
    lookupA (gs "x")
      (BuildModulePathMap [gs "x"] [⟨gs "/r/x/go.mod", gs "x"⟩]) = none :=
  (BuildModulePathMap_exclusion [gs "x"] [⟨gs "/r/x/go.mod", gs "x"⟩] (gs "x")
    (by decide)).1

end tools

namespace cmd

open tools

/-- C3 counterexample: with stable module `"m"` governed by set `"s"` and
a filesystem on which its `go.mod` fails to parse, `verifyDependencies`
returns the parse error instead of succeeding, so it is not success-only. -/
theorem verifyDependencies_parse_failure_counterexample :
    verifyDependencies [(gs "m", ⟨gs "s", gs "v1.0.0"⟩)] [(gs "m", gs "/r/m/go.mod")]
      (fun _ => none) = .error .parseFailed := by
  decide

theorem verifyDependenciesGo_ok (imFull : ModuleInfoMap) (pm : ModulePathMap)
    (readAndParse : ModuleFilePath → Option (List ModulePath)) :
    ∀ l : ModuleInfoMap,
      (∀ x ∈ l, isStableVersion x.2.Version = true →
        (readAndParse ((lookupA x.1 pm).getD [])).isSome = true) →
      ∃ ws, verifyDependenciesGo imFull pm readAndParse l = .ok ws := by
  intro l
  induction l with
  | nil => exact fun _ => ⟨[], rfl⟩
  | cons x rest ih =>
    obtain ⟨p, info⟩ := x
    intro h
    by_cases hs : isStableVersion info.Version = true
    · have hsome := h (p, info) (List.mem_cons_self _ _) hs
      cases hparse : readAndParse ((lookupA p pm).getD []) with
      | none => rw [hparse] at hsome; exact absurd hsome (by simp)
      | some deps =>
        obtain ⟨ws, hws⟩ := ih (fun y hy hsy => h y (List.mem_cons_of_mem _ hy) hsy)
        refine ⟨depWarnings imFull p
          (((lookupA p imFull).getD ⟨[], []⟩).Version) deps ++ ws, ?_⟩
        simp [verifyDependenciesGo, hs, hparse, hws]
    · obtain ⟨ws, hws⟩ := ih (fun y hy hsy => h y (List.mem_cons_of_mem _ hy) hsy)
      refine ⟨ws, ?_⟩
      simp [verifyDependenciesGo, hs, hws]

/-- C3 (amended): `verifyDependencies` is advisory with respect to the
stability policy — a stable module depending on an unstable governed
module only yields warnings, never failure — and it returns success
whenever the `go.mod` file of every stable module parses; it fails (with
the parse error) only when reading/parsing such a file fails. -/
theorem verifyDependencies_advisory_when_parses (im : ModuleInfoMap)
    (pm : ModulePathMap) (readAndParse : ModuleFilePath → Option (List ModulePath))
    (h : ∀ x ∈ im, isStableVersion x.2.Version = true →
      (readAndParse ((lookupA x.1 pm).getD [])).isSome = true) :
    ∃ ws, verifyDependencies im pm readAndParse = .ok ws :=
  verifyDependenciesGo_ok im pm readAndParse im h

/-- Witness for the amended claim C3: a stable module depending on the
unstable governed module `"e"` makes the check succeed (with warnings
only). -/
theorem verifyDependencies_advisory_when_parses_witness :
    ∃ ws, verifyDependencies
        [(gs "a", ⟨gs "S", gs "v1.2.0"⟩), (gs "e", ⟨gs "E", gs "v0.9.0"⟩)]
        [(gs "a", gs "/r/a/go.mod"), (gs "e", gs "/r/e/go.mod")]
        (fun _ => some [gs "e"]) = .ok ws :=
  verifyDependencies_advisory_when_parses _ _ _ (fun x hx hsx => rfl)

end cmd

namespace tagging

open tools

/-! Lemmas for `tagAllModules` (C8). -/

theorem deleteTags_subset : ∀ (l : List GoStr) (s s' : TagSet),
    deleteTags s l = .ok s' → s' ⊆ s := by
  intro l
  induction l with
  | nil =>
    intro s s' h
    obtain rfl : s = s' := by simpa [deleteTags] using h
    exact Finset.Subset.refl _
  | cons t rest ih =>
    intro s s' h
    by_cases ht : t ∈ s
    · rw [show deleteTags s (t :: rest) = deleteTags (s.erase t) rest from by
        simp [deleteTags, gitDeleteTag, ht]] at h
      exact (ih _ _ h).trans (Finset.erase_subset t s)
    · rw [show deleteTags s (t :: rest) = .error s from by
        simp [deleteTags, gitDeleteTag, ht]] at h
      exact absurd h (by simp)

theorem deleteTags_insert (t : GoStr) : ∀ (l : List GoStr) (s s' : TagSet),
    t ∉ s → deleteTags s l = .ok s' →
    deleteTags (insert t s) l = .ok (insert t s') := by
  intro l
  induction l with
  | nil =>
    intro s s' ht h
    obtain rfl : s = s' := by simpa [deleteTags] using h
    simp [deleteTags]
  | cons a rest ih =>
    intro s s' ht h
    by_cases ha : a ∈ s
    · rw [show deleteTags s (a :: rest) = deleteTags (s.erase a) rest from by
        simp [deleteTags, gitDeleteTag, ha]] at h
      have hta : a ≠ t := fun hEq => ht (hEq ▸ ha)
      have ht' : t ∉ s.erase a := fun hmem => ht (Finset.mem_of_mem_erase hmem)
      have hstep := ih (s.erase a) s' ht' h
      rw [show deleteTags (insert t s) (a :: rest) =
          deleteTags ((insert t s).erase a) rest from by
        simp [deleteTags, gitDeleteTag, Finset.mem_insert, ha]]
      rwa [Finset.erase_insert_of_ne (fun hEq => hta hEq.symm)]
    · rw [show deleteTags s (a :: rest) = .error s from by
        simp [deleteTags, gitDeleteTag, ha]] at h
      exact absurd h (by simp)

theorem deleteTags_append_ok : ∀ (l1 : List GoStr) (s s1 : TagSet),
    deleteTags s l1 = .ok s1 → ∀ l2, deleteTags s (l1 ++ l2) = deleteTags s1 l2 := by
  intro l1
  induction l1 with
  | nil =>
    intro s s1 h l2
    obtain rfl : s = s1 := by simpa [deleteTags] using h
    rfl
  | cons a rest ih =>
    intro s s1 h l2
    by_cases ha : a ∈ s
    · rw [show deleteTags s (a :: rest) = deleteTags (s.erase a) rest from by
        simp [deleteTags, gitDeleteTag, ha]] at h
      rw [show deleteTags s ((a :: rest) ++ l2) =
          deleteTags (s.erase a) (rest ++ l2) from by
        simp [deleteTags, gitDeleteTag, ha]]
      exact ih _ _ h l2
    · rw [show deleteTags s (a :: rest) = .error s from by
        simp [deleteTags, gitDeleteTag, ha]] at h
      exact absurd h (by simp)

theorem tagAllModulesGo_rollback (gitFails : GoStr → Bool) :
    ∀ (remaining added : List GoStr) (s s0 : TagSet) (e : TagFailure) (s1 : TagSet),
      deleteTags s added = .ok s0 →
      tagAllModulesGo gitFails remaining added s = .error (e, s1) →
      s1 = s0 ∧ ∃ tag, e = .createFailed tag := by
  intro remaining
  induction remaining with
  | nil =>
    intro added s s0 e s1 _ h
    exact absurd h (by simp [tagAllModulesGo])
  | cons t rest ih =>
    intro added s s0 e s1 hdel h
    by_cases hc : gitFails t || t ∈ s
    · rw [show tagAllModulesGo gitFails (t :: rest) added s =
          (match deleteTags s added with
            | .ok tags' => .error (.createFailed t, tags')
            | .error tagsMid => .error (.createAndRollbackFailed t, tagsMid)) from by
        simp [tagAllModulesGo, gitCreateTag, hc]] at h
      rw [hdel] at h
      obtain ⟨rfl, rfl⟩ :=
        (by simpa using h : TagFailure.createFailed t = e ∧ s0 = s1)
      exact ⟨rfl, t, rfl⟩
    · have hts : t ∉ s := by
        intro hmem
        exact hc (by simp [hmem])
      rw [show tagAllModulesGo gitFails (t :: rest) added s =
          tagAllModulesGo gitFails rest (added ++ [t]) (insert t s) from by
        simp [tagAllModulesGo, gitCreateTag, hc]] at h
      have hdel1 : deleteTags (insert t s) added = .ok (insert t s0) :=
        deleteTags_insert t added s s0 hts hdel
      have hts0 : t ∉ s0 := fun hmem => hts (deleteTags_subset added s s0 hdel hmem)
      have hdel2 : deleteTags (insert t s) (added ++ [t]) = .ok s0 := by
        rw [deleteTags_append_ok added (insert t s) (insert t s0) hdel1 [t]]
        rw [show deleteTags (insert t s0) [t] = .ok ((insert t s0).erase t) from by
          simp [deleteTags, gitDeleteTag, Finset.mem_insert]]
        rw [Finset.erase_insert hts0]
      exact ih (added ++ [t]) (insert t s) s0 e s1 hdel2 h

/-- C8: if `tagAllModules` fails partway through creating the batch of
full tags, the previously created tags of the batch are deleted before the
error is returned, so the resulting tag set equals the pre-operation tag
set (the compensating deletions of freshly created tags always succeed in
this model, so the rollback-failed error never occurs). -/
theorem tagAllModules_rollback (gitFails : GoStr → Bool) (version : GoStr)
    (modTagNames : List ModuleTagName) (tags : TagSet) (e : TagFailure) (tags1 : TagSet)
    (h : tagAllModules gitFails version modTagNames tags = .error (e, tags1)) :
    tags1 = tags ∧ ∃ tag, e = .createFailed tag :=
  tagAllModulesGo_rollback gitFails
    (CombineModuleTagNamesAndVersion modTagNames version) [] tags tags e tags1 rfl h

/-- Witness for C8: creating tags for `["a", "b"]` at version `"v1.0.0"`
from the empty tag set, where git rejects `"b/v1.0.0"`, leaves the tag set
unchanged (the created `"a/v1.0.0"` is rolled back). -/
theorem tagAllModules_rollback_witness :
    (∅ : TagSet) = (∅ : TagSet) ∧
      ∃ tag, TagFailure.createFailed (gs "b/v1.0.0") = .createFailed tag :=
  tagAllModules_rollback (fun t => t = gs "b/v1.0.0") (gs "v1.0.0")
    [gs "a", gs "b"] ∅ (.createFailed (gs "b/v1.0.0")) ∅ (by decide)

end tagging

namespace tools

/-- Witness for C10: a path that neither lies under the repository root
nor ends in `/go.mod` is rejected. -/
theorem ModuleFilePathToTagName_spec_witness :
    ∃ e, ModuleFilePathToTagName (gs "elsewhere.txt") (gs "/repo") = .error e :=
  (ModuleFilePathToTagName_spec (gs "elsewhere.txt") (gs "/repo")).1.mpr
    ⟨by decide, by decide⟩

end tools
